import Mathlib

/-!
Verification of the repository-synchronization engine of the `codesync`
repository (a Next.js application that browses a GitHub repository as a file
tree and deploys AI-generated change sets as single commits).

The development shallowly embeds:
  * `src/lib/buildFileTree.ts` (`buildFileTree`, `sortTree`),
  * the tree-building part of `getFileTree` from `src/app/actions/workspace.ts`,
  * `deployChanges` from `src/app/actions/workspace.ts`,
  * `pushToGithub`, `getLatestCommitInfo` and `sanitizePath` from the
    GitHub push server action (`src/unnamed/part_022`).

Remote GitHub API calls are modelled by an explicit environment (an oracle
giving each call's outcome) and every embedded operation additionally returns
the trace of remote calls it performed, so that atomicity and ordering
properties of the deployment pipeline can be stated and proved.

JavaScript strings are modelled by `String`; `path.split("/")` is modelled at
the character-list level via `List.splitOn '/'`, and string joining by
`List.intercalate` — these satisfy the exact JS semantics on the inputs that
occur (including empty segments).  `localeCompare` is modelled as
case-insensitive lexicographic comparison with a case-sensitive tie-break,
which matches the default collator's primary-strength behaviour on the names
compared here.
-/

namespace CodeSync

/-! ## Path segment utilities -/

/-- Model of JavaScript `s.split("/")`: split the character list on `'/'`. -/
def splitSlash (s : String) : List String :=
  (s.data.splitOn '/').map (fun l => ⟨l⟩)

/-- Model of JavaScript `parts.join("/")`. -/
def joinSlash (l : List String) : String :=
  ⟨List.intercalate ['/'] (l.map String.data)⟩

theorem joinSlash_splitSlash (s : String) : joinSlash (splitSlash s) = s := by
  unfold joinSlash splitSlash
  rw [List.map_map]
  have : (fun l : List Char => (String.mk l).data) = id := by
    funext l; rfl
  rw [show ((fun s : String => s.data) ∘ fun l : List Char => (⟨l⟩ : String)) = id from by
        funext l; rfl]
  rw [List.map_id, List.intercalate_splitOn]

theorem splitSlash_joinSlash (l : List String) (hne : l ≠ [])
    (hsf : ∀ s ∈ l, '/' ∉ s.data) : splitSlash (joinSlash l) = l := by
  unfold joinSlash splitSlash
  have h1 : ∀ cl ∈ l.map String.data, '/' ∉ cl := by
    intro cl hcl
    rcases List.mem_map.mp hcl with ⟨s, hs, rfl⟩
    exact hsf s hs
  have h2 : l.map String.data ≠ [] := by
    intro h; exact hne (List.map_eq_nil_iff.mp h)
  rw [show (String.mk (List.intercalate ['/'] (l.map String.data))).data
        = List.intercalate ['/'] (l.map String.data) from rfl]
  rw [List.splitOn_intercalate (l.map String.data) '/' h1 h2, List.map_map]
  rw [show ((fun d : List Char => (⟨d⟩ : String)) ∘ String.data) = id from by
        funext s; rfl]
  exact List.map_id l

theorem intercalate_cons_of_ne_nil {α : Type} (sep a : List α) (t : List (List α))
    (h : t ≠ []) : List.intercalate sep (a :: t) = a ++ sep ++ List.intercalate sep t := by
  cases t with
  | nil => exact absurd rfl h
  | cons b t' =>
    unfold List.intercalate
    rw [List.intersperse_cons_cons]
    simp [List.append_assoc]

theorem joinSlash_cons_of_ne_nil (a : String) (t : List String) (h : t ≠ []) :
    joinSlash (a :: t) = a ++ "/" ++ joinSlash t := by
  unfold joinSlash
  have ht : t.map String.data ≠ [] := by
    intro hh; exact h (List.map_eq_nil_iff.mp hh)
  rw [List.map_cons, intercalate_cons_of_ne_nil _ _ _ ht]
  apply String.ext
  simp [String.data_append]

theorem joinSlash_singleton (a : String) : joinSlash [a] = a := by
  unfold joinSlash
  simp [List.intercalate]

theorem joinSlash_append_singleton (l : List String) (s : String) (h : l ≠ []) :
    joinSlash (l ++ [s]) = joinSlash l ++ "/" ++ s := by
  induction l with
  | nil => exact absurd rfl h
  | cons a t ih =>
    cases t with
    | nil =>
      rw [show ([a] ++ [s]) = a :: [s] from rfl,
        joinSlash_cons_of_ne_nil a [s] (by simp), joinSlash_singleton,
        joinSlash_singleton]
    | cons b t' =>
      rw [List.cons_append,
        joinSlash_cons_of_ne_nil a ((b :: t') ++ [s]) (by simp),
        joinSlash_cons_of_ne_nil a (b :: t') (by simp), ih (by simp)]
      simp [String.append_assoc]

/-! ## The `FileNode` data model (src/lib/buildFileTree.ts) -/

/-- `type: "file" | "dir"` of a `FileNode`. -/
inductive FType where
  | file
  | dir
deriving DecidableEq, Repr

/-- `FileNode` from src/lib/buildFileTree.ts:
`{name, path, type, children?: FileNode[]}`.  The optional `children` array is
`Option (List FileNode)`. -/
inductive FileNode : Type where
  | mk (name : String) (path : String) (type : FType)
      (children : Option (List FileNode))

def FileNode.name : FileNode → String
  | .mk n _ _ _ => n

def FileNode.path : FileNode → String
  | .mk _ p _ _ => p

def FileNode.type : FileNode → FType
  | .mk _ _ t _ => t

def FileNode.children : FileNode → Option (List FileNode)
  | .mk _ _ _ c => c

/-- Replace the first node satisfying `p` by `f` applied to it, keeping its
position — the functional counterpart of mutating the node that
`currentLevel.find(...)` returned. -/
def updateFirst (p : FileNode → Bool) (f : FileNode → FileNode) :
    List FileNode → List FileNode
  | [] => []
  | n :: ns => if p n then f n :: ns else n :: updateFirst p f ns

/-- The body of `paths.forEach` in `buildFileTree` (src/lib/buildFileTree.ts,
lines 16–45), as a recursion over the remaining segments of one path.
`pref` is the list of segments already consumed (so the code's
`fullPath = parts.slice(0, index + 1).join("/")` is `joinSlash (pref ++ [part])`),
and `level` is the sibling array `currentLevel` points at.

* a node of the right name exists and the segment is not final and the node
  has a `children` array → descend into that node's children;
* a node of the right name exists otherwise → nothing is inserted and the
  walk continues at the same level (for a final segment the loop just ends);
* no node of that name → push a new node at the end of the level, a `file`
  leaf for a final segment, otherwise a `dir` into whose fresh `children`
  the remaining segments are inserted. -/
def insertGo (pref : List String) : List String → List FileNode → List FileNode
  | [], level => level
  | part :: rest, level =>
    match level.find? (fun n => n.name == part) with
    | some node =>
      if rest.isEmpty then level
      else
        match node.children with
        | some _ =>
            updateFirst (fun n => n.name == part)
              (fun n =>
                match n with
                | .mk nm p t (some cs) =>
                    .mk nm p t (some (insertGo (pref ++ [part]) rest cs))
                | other => other) level
        | none => insertGo (pref ++ [part]) rest level
    | none =>
      if rest.isEmpty then
        level ++ [.mk part (joinSlash (pref ++ [part])) .file none]
      else
        level ++ [.mk part (joinSlash (pref ++ [part])) .dir
          (some (insertGo (pref ++ [part]) rest []))]

/-- Insert a single path (`filePath`) into the root forest: split on `"/"`
and walk the segments. -/
def insertPath (root : List FileNode) (filePath : String) : List FileNode :=
  insertGo [] (splitSlash filePath) root

/-- `a.localeCompare(b) ≤ 0`, modelled as case-insensitive lexicographic
comparison with a case-sensitive tie-break. -/
def lcLe (a b : String) : Bool :=
  decide (a.toLower < b.toLower) ||
    (a.toLower == b.toLower && decide (a ≤ b))

/-- The comparator of `sortTree` (src/lib/buildFileTree.ts, lines 50–55) as a
boolean "less or equal": directories sort before files, and nodes of equal
type sort by `localeCompare` on their names. -/
def nodeLe (a b : FileNode) : Bool :=
  if a.type = b.type then lcLe a.name b.name else a.type = .dir

/-- `sortTree` (src/lib/buildFileTree.ts, lines 48–60): sort each sibling
group with the comparator, then recursively sort every `children` array.
JavaScript's `Array.prototype.sort` is required to be stable, so it is
modelled by the stable `List.mergeSort`. -/
def sortTree (nodes : List FileNode) : List FileNode :=
  (List.mergeSort nodes nodeLe).attach.map
    (fun y =>
      match y with
      | ⟨.mk n p t none, _⟩ => .mk n p t none
      | ⟨.mk n p t (some cs), hmem⟩ => .mk n p t (some (sortTree cs)))
termination_by sizeOf nodes
decreasing_by
  have h1 : sizeOf (FileNode.mk n p t (some cs)) < sizeOf nodes :=
    List.sizeOf_lt_of_mem (List.mem_mergeSort.mp hmem)
  simp only [FileNode.mk.sizeOf_spec, Option.some.sizeOf_spec] at h1
  omega

/-- `buildFileTree` (src/lib/buildFileTree.ts, lines 13–63): insert every
path into an initially empty root forest, then sort. -/
def buildFileTree (paths : List String) : List FileNode :=
  sortTree (paths.foldl insertPath [])

/-- Modelled from the spec: `Flatten(nodes)` (§4.1) is not a production entry
point of the source; per the spec it walks depth-first, expands directories
into their children and emits each file at its own `path`. -/
def flattenForest : List FileNode → List String
  | [] => []
  | .mk _ p .file _ :: ns => p :: flattenForest ns
  | .mk _ _ .dir none :: ns => flattenForest ns
  | .mk _ _ .dir (some cs) :: ns => flattenForest cs ++ flattenForest ns

/-! ## The tree builder of `getFileTree` (src/app/actions/workspace.ts, lines 42–107)

`getFileTree` builds its own nested structure from the flat recursive listing
returned by `octokit.git.getTree`.  The JavaScript code mutates node objects
shared between the result array and a `dirMap`; the embedding makes the
object graph explicit: nodes live in a `store` (node ids are store indices),
`root`/`children` hold ids, and the final forest is materialized at the end.
The `size` field of the source's nodes is carried along; `currentLevel` in
the source is only ever read at depth 0, where it is the root array. -/

/-- `item.type` of one entry of the flat `git.getTree` listing. -/
inductive GhType where
  | blob
  | tree
deriving DecidableEq, Repr

/-- One entry of the flat recursive tree listing. -/
structure GhItem where
  path : String
  type : GhType
  size : Option Nat
deriving Repr

/-- A stored (mutable, shareable) node: like `FileNode` but with children as
store indices. -/
structure SNode where
  name : String
  path : String
  type : FType
  size : Option Nat
  children : Option (List Nat)
deriving Repr

structure GhSt where
  store : List SNode
  root : List Nat
  dirMap : List (String × Nat)
deriving Repr

/-- `parentNode.children.push(node)` after `if (!parentNode.children)
parentNode.children = []`, where the parent is `dirMap.get(parentPath)`;
when the parent is absent the node is silently dropped. -/
def pushChild (st : GhSt) (parentPath : String) (id : Nat) : GhSt :=
  match st.dirMap.find? (fun e => e.1 == parentPath) with
  | none => st
  | some e =>
    match st.store[e.2]? with
    | none => st
    | some sn =>
        { st with
          store := st.store.set e.2
            { sn with children := some (sn.children.getD [] ++ [id]) } }

/-- Process one listing item: the `data.tree.forEach` body, iterating `i`
over the segments of `item.path`. -/
def procItem (st : GhSt) (item : GhItem) : GhSt :=
  let parts := splitSlash item.path
  (List.range parts.length).foldl
    (fun st i =>
      let part := parts.getD i ""
      let currentPath := joinSlash (parts.take (i + 1))
      if i = parts.length - 1 then
        let nd : SNode :=
          ⟨part, item.path, if item.type = .blob then .file else .dir,
            item.size, none⟩
        let id := st.store.length
        let st' := { st with store := st.store ++ [nd] }
        let st'' :=
          if i = 0 then { st' with root := st'.root ++ [id] }
          else pushChild st' (joinSlash (parts.take i)) id
        if item.type = .tree then
          { st'' with dirMap := (item.path, id) :: st''.dirMap }
        else st''
      else
        match st.dirMap.find? (fun e => e.1 == currentPath) with
        | some _ => st
        | none =>
          let nd : SNode := ⟨part, currentPath, .dir, none, some []⟩
          let id := st.store.length
          let st' :=
            { st with
              store := st.store ++ [nd]
              dirMap := (currentPath, id) :: st.dirMap }
          if i = 0 then { st' with root := st'.root ++ [id] }
          else pushChild st' (joinSlash (parts.take i)) id)
    st

/-- Materialize a stored node as a `FileNode` (dropping `size`, which the
claims do not mention).  Children ids always point to later store entries,
so the store length bounds the depth and serves as fuel. -/
def matNode (store : List SNode) : Nat → Nat → Option FileNode
  | 0, _ => none
  | fuel + 1, id =>
    match store[id]? with
    | none => none
    | some sn =>
      some (.mk sn.name sn.path sn.type
        (match sn.children with
         | none => none
         | some ids => some (ids.filterMap (matNode store fuel))))

/-- The tree-building part of `getFileTree`: fold the listing into the store
and materialize the root forest. -/
def getFileTree (items : List GhItem) : List FileNode :=
  let st := items.foldl procItem ⟨[], [], []⟩
  st.root.filterMap (matNode st.store (st.store.length + 1))

/-! ## The sort invariant of claim C2, as predicates on forests -/

/-- The claimed relation between two ordered siblings: no `file` before a
`dir`, and names of equal-type nodes case-insensitively ascending. -/
def pairRespects (a b : FileNode) : Bool :=
  (!(a.type = FType.file && b.type = FType.dir)) &&
    (if a.type = b.type then decide (a.name.toLower ≤ b.name.toLower)
     else true)

/-- One sibling group is ordered: `pairRespects` pairwise. -/
def levelOrdered : List FileNode → Bool
  | [] => true
  | a :: rest => rest.all (pairRespects a) && levelOrdered rest

mutual

/-- Every sibling group of the forest (the top level and, recursively, every
`children` array) is ordered. -/
def treeOrdered (t : List FileNode) : Bool :=
  levelOrdered t && childrenOrdered t

def childrenOrdered : List FileNode → Bool
  | [] => true
  | .mk _ _ _ none :: ns => childrenOrdered ns
  | .mk _ _ _ (some cs) :: ns => treeOrdered cs && childrenOrdered ns

end

/-! ## The deployment pipeline

`deployChanges` (src/app/actions/workspace.ts, lines 520–637) and
`pushToGithub` (the GitHub push server action) are embedded as functions of
an explicit environment: each remote Octokit call is an oracle field of the
environment giving that call's outcome.  Each embedded operation returns its
result together with the ordered trace of remote calls it performed, so that
"nothing was attempted after X failed" and "the ref only moves last" are
statable.  A thrown JavaScript exception is an `Except.error` propagated to
the enclosing `try`/`catch`, which converts it into the structured failure
return value exactly as the source does.  Base64-encoding of blob content is
the remote store's wire format and round-trips, so the blob oracle is
applied to the content itself.  Commit messages do not influence any claim
and are not passed to the oracle. -/

/-- An opaque git object id. -/
abbrev Sha := String

/-- A remote API error: `isNotFound` discriminates on `status === 404`. -/
structure GErr where
  notFound : Bool
  msg : String
deriving DecidableEq, Repr

/-- One entry of the `tree` array passed to `git.createTree`.  The source
always uses `mode: "100644"` and `type: "blob"`; `sha: null` (for deletes)
is `none`. -/
structure TreeEntry where
  path : String
  sha : Option Sha
deriving DecidableEq, Repr

/-- `type?: "create" | "update" | "delete"` of a change. -/
inductive CType where
  | create
  | update
  | delete
deriving DecidableEq, Repr

/-- One element of the `changes` array of `deployChanges`. -/
structure Change where
  path : String
  content : Option String
  type : Option CType
deriving DecidableEq, Repr

/-- A remote call, as recorded in a trace. -/
inductive GitEv where
  | getAuthUser
  | getRepo
  | createRepo
  | getRefMain
  | getRefDefault
  | getCommit (sha : Sha)
  | createBlob (content : String)
  | createTree (base : Option Sha) (entries : List TreeEntry)
  | createCommit (tree : Sha) (parents : List Sha)
  | updateRefMain (sha : Sha)
  | updateRefDefault (sha : Sha)
  | createRef (sha : Sha)
deriving DecidableEq, Repr

/-- Environment for `deployChanges`: outcomes of every remote call it can
make.  `defaultBranch` is `octokit.repos.get` (used by both `catch`
fallbacks); `commitTree` maps a commit sha to its tree sha. -/
structure DEnv where
  accessToken : Bool
  refMain : Except GErr Sha
  defaultBranch : Except GErr String
  refDefault : Except GErr Sha
  commitTree : Sha → Except GErr Sha
  createBlob : String → Except GErr Sha
  createTree : Option Sha → List TreeEntry → Except GErr Sha
  createCommit : Sha → List Sha → Except GErr Sha
  updateRefMain : Sha → Except GErr Unit
  updateRefDefault : Sha → Except GErr Unit

/-- The return shape of `deployChanges`:
`Promise<{ success: boolean; error?: string }>`. -/
structure DeployRes where
  success : Bool
  error : Option String
deriving DecidableEq, Repr

/-- The `for (const change of changes)` loop of `deployChanges`: a `delete`
change contributes a `sha: null` entry without any remote call; any other
change requires `content` (otherwise the loop throws) and creates a blob
from it. -/
def deployLoop (env : DEnv) :
    List Change → List GitEv × Except GErr (List TreeEntry)
  | [] => ([], .ok [])
  | c :: rest =>
    if c.type = some CType.delete then
      let r := deployLoop env rest
      (r.1, r.2.map (fun es => ⟨c.path, none⟩ :: es))
    else
      match c.content with
      | none => ([], .error ⟨false, "Missing content for change at " ++ c.path⟩)
      | some content =>
        match env.createBlob content with
        | .error e => ([.createBlob content], .error e)
        | .ok sha =>
          let r := deployLoop env rest
          (.createBlob content :: r.1,
            r.2.map (fun es => ⟨c.path, some sha⟩ :: es))

/-- `deployChanges` (src/app/actions/workspace.ts, lines 520–637). -/
def deployChanges (env : DEnv) (changes : List Change) :
    DeployRes × List GitEv :=
  if !env.accessToken then (⟨false, some "Unauthorized"⟩, []) else
  match env.refMain with
  | .error _ =>
    -- `.catch`: `repos.get` then `getRef` on the default branch
    match env.defaultBranch with
    | .error e => (⟨false, some e.msg⟩, [.getRefMain, .getRepo])
    | .ok _ =>
      match env.refDefault with
      | .error e =>
          (⟨false, some e.msg⟩, [.getRefMain, .getRepo, .getRefDefault])
      | .ok sha =>
          deployAfterRef env changes sha [.getRefMain, .getRepo, .getRefDefault]
  | .ok sha => deployAfterRef env changes sha [.getRefMain]
where
  /-- Everything from `git.getCommit` on, given the resolved head commit. -/
  deployAfterRef (env : DEnv) (changes : List Change) (currentCommitSha : Sha)
      (tr : List GitEv) : DeployRes × List GitEv :=
    let tr := tr ++ [.getCommit currentCommitSha]
    match env.commitTree currentCommitSha with
    | .error e => (⟨false, some e.msg⟩, tr)
    | .ok baseTree =>
      let lp := deployLoop env changes
      let tr := tr ++ lp.1
      match lp.2 with
      | .error e => (⟨false, some e.msg⟩, tr)
      | .ok entries =>
        let tr := tr ++ [.createTree (some baseTree) entries]
        match env.createTree (some baseTree) entries with
        | .error e => (⟨false, some e.msg⟩, tr)
        | .ok newTree =>
          let tr := tr ++ [.createCommit newTree [currentCommitSha]]
          match env.createCommit newTree [currentCommitSha] with
          | .error e => (⟨false, some e.msg⟩, tr)
          | .ok newSha =>
            match env.updateRefMain newSha with
            | .ok _ => (⟨true, none⟩, tr ++ [.updateRefMain newSha])
            | .error _ =>
              -- `.catch`: `repos.get` then `updateRef` on the default branch
              match env.defaultBranch with
              | .error e =>
                  (⟨false, some e.msg⟩, tr ++ [.updateRefMain newSha, .getRepo])
              | .ok _ =>
                match env.updateRefDefault newSha with
                | .ok _ =>
                    (⟨true, none⟩,
                      tr ++ [.updateRefMain newSha, .getRepo,
                        .updateRefDefault newSha])
                | .error e =>
                    (⟨false, some e.msg⟩,
                      tr ++ [.updateRefMain newSha, .getRepo,
                        .updateRefDefault newSha])

/-- The branch pointer was actually moved during a trace: some ref-update or
ref-creation call appears in the trace and its oracle outcome is a success. -/
def dRefMoved (env : DEnv) (tr : List GitEv) : Prop :=
  (∃ sha, GitEv.updateRefMain sha ∈ tr ∧ env.updateRefMain sha = .ok ()) ∨
  (∃ sha, GitEv.updateRefDefault sha ∈ tr ∧ env.updateRefDefault sha = .ok ())

/-- A trace event is a write to a branch ref. -/
def isRefWrite : GitEv → Prop
  | .updateRefMain _ => True
  | .updateRefDefault _ => True
  | .createRef _ => True
  | _ => False

/-- A trace event is part of tree or commit composition. -/
def isTreeOrCommit : GitEv → Prop
  | .createTree _ _ => True
  | .createCommit _ _ => True
  | _ => False

/-! ### The GitHub push server action (src/unnamed/part_022) -/

/-- Model of JavaScript `String.prototype.trim`: drop whitespace from both
ends (at the character-list level, so that it evaluates in the kernel). -/
def jsTrim (s : String) : String :=
  ⟨((s.data.dropWhile Char.isWhitespace).reverse.dropWhile
      Char.isWhitespace).reverse⟩

/-- `sanitizePath` helper: the regex `/^\/+/` strips leading slashes. -/
def stripLeadingSlashes (s : String) : String :=
  ⟨s.data.dropWhile (fun c => c == '/')⟩

/-- `sanitizePath` (src/unnamed/part_022, lines 218–234).  The
`typeof path !== "string"` guard is vacuous for `String` inputs; `!path`
is the empty-string falsiness test. -/
def sanitizePath (path : String) : Except String String :=
  if path = "" then .error "Each file must include a valid path."
  else
    let normalized := stripLeadingSlashes path
    if normalized = "" then .error "File paths cannot be empty."
    else if (splitSlash normalized).any (fun seg => seg == "..") then
      .error "File paths cannot traverse directories."
    else .ok normalized

/-- `FileToCreate`. -/
structure PFile where
  path : String
  content : String
deriving DecidableEq, Repr

/-- `PushToGitHubParams`. -/
structure PushParams where
  repoName : String
  files : List PFile
  commitMessage : Option String
  description : Option String
  isPrivate : Option Bool
deriving Repr

/-- `PushToGitHubResult`: success carries `repoUrl` and `commitSha`, failure
carries `error`. -/
structure PushRes where
  success : Bool
  error : Option String
  repoUrl : Option String
  commitSha : Option Sha
deriving DecidableEq, Repr

/-- Environment for `pushToGithub` (branch is always `"main"`). -/
structure PEnv where
  accessToken : Bool
  viewerLogin : Except GErr String
  repoGet : Except GErr Unit
  createRepo : Except GErr Unit
  refMain : Except GErr Sha
  commitTree : Sha → Except GErr Sha
  createBlob : String → Except GErr Sha
  createTree : Option Sha → List TreeEntry → Except GErr Sha
  createCommit : Sha → List Sha → Except GErr Sha
  updateRef : Sha → Except GErr Unit
  createRef : Sha → Except GErr Unit
  now : String

/-- `ensureRepository`: `repos.get`, creating the repository on 404. -/
def ensureRepository (env : PEnv) : List GitEv × Except GErr Unit :=
  match env.repoGet with
  | .ok _ => ([.getRepo], .ok ())
  | .error e =>
    if e.notFound then
      match env.createRepo with
      | .ok _ => ([.getRepo, .createRepo], .ok ())
      | .error e2 => ([.getRepo, .createRepo], .error e2)
    else ([.getRepo], .error e)

/-- `getLatestCommitInfo` (src/unnamed/part_022, lines 144–173): resolve
`heads/main` and the head commit's tree; a 404 anywhere inside means "no
commits yet" and yields `{undefined, undefined}`; other errors rethrow. -/
def getLatestCommitInfo (env : PEnv) :
    List GitEv × Except GErr (Option Sha × Option Sha) :=
  match env.refMain with
  | .error e =>
    if e.notFound then ([.getRefMain], .ok (none, none))
    else ([.getRefMain], .error e)
  | .ok sha =>
    match env.commitTree sha with
    | .error e =>
      if e.notFound then ([.getRefMain, .getCommit sha], .ok (none, none))
      else ([.getRefMain, .getCommit sha], .error e)
    | .ok t => ([.getRefMain, .getCommit sha], .ok (some sha, some t))

/-- `Promise.all(files.map(file => createBlob(...)))`: the collected results
in order; the first rejection rejects the whole batch and nothing later is
composed from it. -/
def pushBlobs (env : PEnv) : List PFile → List GitEv × Except GErr (List Sha)
  | [] => ([], .ok [])
  | f :: rest =>
    match env.createBlob f.content with
    | .error e => ([.createBlob f.content], .error e)
    | .ok sha =>
      let r := pushBlobs env rest
      (.createBlob f.content :: r.1, r.2.map (fun shas => sha :: shas))

/-- `params.files.map(file => ({...file, path: sanitizePath(file.path)}))`;
a thrown sanitization error aborts the whole mapping. -/
def sanitizeAll : List PFile → Except String (List PFile)
  | [] => .ok []
  | f :: rest =>
    match sanitizePath f.path with
    | .error m => .error m
    | .ok p => (sanitizeAll rest).map (fun fs => ⟨p, f.content⟩ :: fs)

/-- Failure result of `pushToGithub`. -/
def pFail (m : String) : PushRes := ⟨false, some m, none, none⟩

/-- `pushToGithub` (src/unnamed/part_022, lines 14–115). -/
def pushToGithub (env : PEnv) (params : PushParams) :
    PushRes × List GitEv :=
  if !env.accessToken then
    (pFail "You must connect your GitHub account to deploy.", [])
  else if jsTrim params.repoName = "" then
    (pFail "A repository name is required.", [])
  else if params.files.isEmpty then
    (pFail "At least one file must be provided.", [])
  else
    match env.viewerLogin with
    | .error e => (pFail e.msg, [.getAuthUser])
    | .ok owner =>
      match sanitizeAll params.files with
      | .error m => (pFail m, [.getAuthUser])
      | .ok files =>
        let ens := ensureRepository env
        let tr := GitEv.getAuthUser :: ens.1
        match ens.2 with
        | .error e => (pFail e.msg, tr)
        | .ok _ =>
          let info := getLatestCommitInfo env
          let tr := tr ++ info.1
          match info.2 with
          | .error e => (pFail e.msg, tr)
          | .ok latest =>
            let bl := pushBlobs env files
            let tr := tr ++ bl.1
            match bl.2 with
            | .error e => (pFail e.msg, tr)
            | .ok shas =>
              let entries : List TreeEntry :=
                (files.zip shas).map (fun fs => ⟨fs.1.path, some fs.2⟩)
              let tr := tr ++ [.createTree latest.2 entries]
              match env.createTree latest.2 entries with
              | .error e => (pFail e.msg, tr)
              | .ok treeSha =>
                let parents :=
                  match latest.1 with
                  | some s => [s]
                  | none => []
                let tr := tr ++ [.createCommit treeSha parents]
                match env.createCommit treeSha parents with
                | .error e => (pFail e.msg, tr)
                | .ok commitSha =>
                  -- `upsertBranchRef`: update when the branch existed,
                  -- create otherwise (`!!latestCommitSha`)
                  match latest.1 with
                  | some _ =>
                    match env.updateRef commitSha with
                    | .error e =>
                        (pFail e.msg, tr ++ [.updateRefMain commitSha])
                    | .ok _ =>
                        (⟨true, none,
                          some ("https://github.com/" ++ owner ++ "/" ++
                            jsTrim params.repoName),
                          some commitSha⟩, tr ++ [.updateRefMain commitSha])
                  | none =>
                    match env.createRef commitSha with
                    | .error e =>
                        (pFail e.msg, tr ++ [.createRef commitSha])
                    | .ok _ =>
                        (⟨true, none,
                          some ("https://github.com/" ++ owner ++ "/" ++
                            jsTrim params.repoName),
                          some commitSha⟩, tr ++ [.createRef commitSha])

/-- The branch pointer was moved during a `pushToGithub` trace. -/
def pRefMoved (env : PEnv) (tr : List GitEv) : Prop :=
  (∃ sha, GitEv.updateRefMain sha ∈ tr ∧ env.updateRef sha = .ok ()) ∨
  (∃ sha, GitEv.createRef sha ∈ tr ∧ env.createRef sha = .ok ())

/-! ## Shared concrete environments for witnesses and counterexamples -/

/-- A `deployChanges` environment in which every remote call succeeds. -/
def allOkD : DEnv where
  accessToken := true
  refMain := .ok "H"
  defaultBranch := .ok "master"
  refDefault := .ok "H2"
  commitTree := fun _ => .ok "T0"
  createBlob := fun c => .ok ("B-" ++ c)
  createTree := fun _ _ => .ok "T1"
  createCommit := fun _ _ => .ok "C1"
  updateRefMain := fun _ => .ok ()
  updateRefDefault := fun _ => .ok ()

/-- A `pushToGithub` environment for a repository with zero commits
(`heads/main` does not exist → 404) in which every write succeeds. -/
def zeroCommitP : PEnv where
  accessToken := true
  viewerLogin := .ok "alice"
  repoGet := .ok ()
  createRepo := .ok ()
  refMain := .error ⟨true, "Not Found"⟩
  commitTree := fun _ => .ok "T0"
  createBlob := fun c => .ok ("B-" ++ c)
  createTree := fun _ _ => .ok "T1"
  createCommit := fun _ _ => .ok "C1"
  updateRef := fun _ => .ok ()
  createRef := fun _ => .ok ()
  now := "2026-01-01T00:00:00.000Z"

/-! ## C10 — `sanitizePath` is idempotent -/

theorem stripLeadingSlashes_idem (s : String) :
    stripLeadingSlashes (stripLeadingSlashes s) = stripLeadingSlashes s := by
  unfold stripLeadingSlashes
  exact congrArg String.mk (List.dropWhile_idempotent _ _)

/-- Claim C10: `sanitizePath` is idempotent — whenever it succeeds, running
it again on its own output returns that output unchanged. -/
theorem sanitizePath_idem (p q : String) (h : sanitizePath p = .ok q) :
    sanitizePath q = .ok q := by
  unfold sanitizePath at h
  by_cases hp : p = ""
  · simp [hp] at h
  · simp only [hp, if_false] at h
    by_cases hn : stripLeadingSlashes p = ""
    · simp [hn] at h
    · simp only [hn, if_false] at h
      by_cases hd : (splitSlash (stripLeadingSlashes p)).any (fun seg => seg == "..") = true
      · simp [hd] at h
      · simp only [hd] at h
        simp only [Bool.false_eq_true, if_false, Except.ok.injEq] at h
        subst h
        unfold sanitizePath
        rw [stripLeadingSlashes_idem] at *
        simp [hn, hd]

/-- Witness for C10 at the concrete input `"///a/b"`. -/
theorem sanitizePath_idem_witness : sanitizePath "a/b" = .ok "a/b" :=
  sanitizePath_idem "///a/b" "a/b" rfl

/-! ## Result-shape lemmas for the pipeline -/

/-- `deployChanges` always returns either the bare success value or a
failure with an error message (the source wraps its whole body in
`try`/`catch`, so the embedding is a total function). -/
theorem deployChanges_shape (env : DEnv) (ch : List Change) :
    (deployChanges env ch).1 = ⟨true, none⟩ ∨
      ∃ m, (deployChanges env ch).1 = ⟨false, some m⟩ := by
  unfold deployChanges deployChanges.deployAfterRef
  dsimp only
  repeat' split
  all_goals simp

/-- `pushToGithub` always returns either a success carrying `repoUrl` and
`commitSha`, or a failure with an error message and no partial data. -/
theorem pushToGithub_shape (env : PEnv) (params : PushParams) :
    (∃ u c, (pushToGithub env params).1 = ⟨true, none, some u, some c⟩) ∨
      ∃ m, (pushToGithub env params).1 = pFail m := by
  unfold pushToGithub
  dsimp only
  repeat' split
  all_goals simp [pFail]

/-! ## C8 — total, structured results; but `deployChanges` success carries
no commit information -/

/-- A second all-success environment, differing from `allOkD` only in the
commit id minted by `git.createCommit`. -/
def allOkD2 : DEnv := { allOkD with createCommit := fun _ _ => .ok "C2" }

/-- Counterexample to C8 as stated: a successful `deployChanges` call does
not carry a `commitId` or `commitUrl`.  Its return value is the same bare
`{success: true}` under two environments whose `createCommit` calls mint
different commit ids, so the success value cannot identify the commit, and
it contains no URL either. -/
theorem deployChanges_success_carries_no_commit :
    (deployChanges allOkD [⟨"a.txt", some "hi", some .create⟩]).1 = ⟨true, none⟩ ∧
    (deployChanges allOkD2 [⟨"a.txt", some "hi", some .create⟩]).1 = ⟨true, none⟩ ∧
    allOkD.createCommit "T1" ["H"] ≠ allOkD2.createCommit "T1" ["H"] :=
  ⟨rfl, rfl, by simp [allOkD, allOkD2]⟩

/-- Claim C8, amended: every call of either deploy implementation returns a
structured result — `pushToGithub` success carries `repoUrl` and
`commitSha` and failure carries an error message; `deployChanges` likewise
never returns a partial shape, but its success value carries only the
success flag (no commit id or URL). -/
theorem deploy_results_are_structured (env : DEnv) (ch : List Change)
    (penv : PEnv) (params : PushParams) :
    ((deployChanges env ch).1.success = true →
        (deployChanges env ch).1.error = none) ∧
    ((deployChanges env ch).1.success = false →
        ∃ m, (deployChanges env ch).1.error = some m) ∧
    ((pushToGithub penv params).1.success = true →
        (pushToGithub penv params).1.error = none ∧
        (∃ u, (pushToGithub penv params).1.repoUrl = some u) ∧
        (∃ c, (pushToGithub penv params).1.commitSha = some c)) ∧
    ((pushToGithub penv params).1.success = false →
        (∃ m, (pushToGithub penv params).1.error = some m) ∧
        (pushToGithub penv params).1.repoUrl = none ∧
        (pushToGithub penv params).1.commitSha = none) := by
  refine ⟨?_, ?_, ?_, ?_⟩ <;> intro h
  · rcases deployChanges_shape env ch with h1 | ⟨m, h1⟩ <;> simp_all
  · rcases deployChanges_shape env ch with h1 | ⟨m, h1⟩ <;> simp_all
  · rcases pushToGithub_shape penv params with ⟨u, c, h1⟩ | ⟨m, h1⟩ <;>
      simp_all [pFail]
  · rcases pushToGithub_shape penv params with ⟨u, c, h1⟩ | ⟨m, h1⟩ <;>
      simp_all [pFail]

/-- Witness for the amended C8 at concrete inputs. -/
theorem deploy_results_are_structured_witness :
    (deployChanges allOkD [⟨"a", some "x", some .create⟩]).1.success = true →
      (deployChanges allOkD [⟨"a", some "x", some .create⟩]).1.error = none :=
  (deploy_results_are_structured allOkD [⟨"a", some "x", some .create⟩]
    zeroCommitP ⟨"repo", [⟨"a.txt", "hi"⟩], none, none, none⟩).1

/-! ## C5 — duplicate paths are not rejected -/

/-- Counterexample to C5: a change-set with two entries for the same path
`"a"` is not rejected — the deployment succeeds, and a blob was created
(a remote write) with no `ValidationError` of any kind. -/
theorem duplicate_paths_not_rejected :
    (deployChanges allOkD
        [⟨"a", some "x", some .create⟩, ⟨"a", some "y", some .update⟩]).1
      = ⟨true, none⟩ ∧
    GitEv.createBlob "x" ∈
      (deployChanges allOkD
        [⟨"a", some "x", some .create⟩, ⟨"a", some "y", some .update⟩]).2 :=
  ⟨rfl, by decide⟩

/-- All remote calls of a `DEnv` succeed. -/
def DEnvAllOk (env : DEnv) : Prop :=
  env.accessToken = true ∧
  (∃ s, env.refMain = .ok s) ∧
  (∀ s, ∃ t, env.commitTree s = .ok t) ∧
  (∀ c, ∃ s, env.createBlob c = .ok s) ∧
  (∀ b es, ∃ s, env.createTree b es = .ok s) ∧
  (∀ t ps, ∃ s, env.createCommit t ps = .ok s) ∧
  (∀ s, env.updateRefMain s = .ok ())

theorem deployLoop_ok_of (env : DEnv)
    (hb : ∀ c, ∃ s, env.createBlob c = .ok s) :
    ∀ ch : List Change,
      (∀ c ∈ ch, c.type ≠ some CType.delete → c.content ≠ none) →
      ∃ es, (deployLoop env ch).2 = .ok es := by
  intro ch
  induction ch with
  | nil => intro _; exact ⟨[], rfl⟩
  | cons c rest ih =>
    intro hc
    have hrest := ih (fun d hd => hc d (List.mem_cons_of_mem c hd))
    rcases hrest with ⟨es, hes⟩
    unfold deployLoop
    by_cases hd : c.type = some CType.delete
    · simp only [hd, if_true]
      exact ⟨⟨c.path, none⟩ :: es, by simp [hes, Except.map]⟩
    · simp only [hd, if_false]
      have hcn := hc c (List.mem_cons_self c rest) hd
      cases hcc : c.content with
      | none => exact absurd hcc hcn
      | some content =>
        rcases hb content with ⟨s, hs⟩
        refine ⟨⟨c.path, some s⟩ :: es, ?_⟩
        simp [hs, hes, Except.map]

/-- Claim C5, amended: the code performs no duplicate-path validation.  Any
change-set whose non-delete entries carry content — including one with two
entries for the same path — deploys successfully when every remote call
succeeds; no `ValidationError` about duplicates exists. -/
theorem deployChanges_no_duplicate_check (env : DEnv) (ch : List Change)
    (henv : DEnvAllOk env)
    (hc : ∀ c ∈ ch, c.type ≠ some CType.delete → c.content ≠ none) :
    (deployChanges env ch).1 = ⟨true, none⟩ := by
  obtain ⟨hat, ⟨sha, hsha⟩, hct, hb, htr, hcm, hur⟩ := henv
  rcases deployLoop_ok_of env hb ch hc with ⟨es, hes⟩
  rcases hct sha with ⟨t, ht⟩
  rcases htr (some t) es with ⟨nt, hnt⟩
  rcases hcm nt [sha] with ⟨ns, hns⟩
  unfold deployChanges deployChanges.deployAfterRef
  rw [hat, hsha]
  dsimp only
  rw [ht]
  dsimp only
  rw [hes]
  dsimp only
  rw [hnt]
  dsimp only
  rw [hns]
  dsimp only
  rw [hur ns]
  simp

/-- Witness for the amended C5, at a change-set containing a duplicated
path. -/
theorem deployChanges_no_duplicate_check_witness :
    (deployChanges allOkD
        [⟨"a", some "x", some .create⟩, ⟨"a", some "y", some .update⟩]).1
      = ⟨true, none⟩ :=
  deployChanges_no_duplicate_check allOkD
    [⟨"a", some "x", some .create⟩, ⟨"a", some "y", some .update⟩]
    ⟨rfl, ⟨"H", rfl⟩, fun _ => ⟨"T0", rfl⟩, fun c => ⟨"B-" ++ c, rfl⟩,
      fun _ _ => ⟨"T1", rfl⟩, fun _ _ => ⟨"C1", rfl⟩, fun _ => rfl⟩
    (by decide)

/-! ## C7 — deletes with content are not rejected -/

/-- Counterexample to C7: a `delete` entry carrying (non-absent) content is
not rejected — no `ValidationError` is raised; the deployment succeeds and
the entry is submitted with a null object id, its content ignored. -/
theorem delete_with_content_not_rejected :
    (deployChanges allOkD [⟨"a", some "x", some .delete⟩]).1 = ⟨true, none⟩ ∧
    GitEv.createTree (some "T0") [⟨"a", none⟩] ∈
      (deployChanges allOkD [⟨"a", some "x", some .delete⟩]).2 :=
  ⟨rfl, by decide⟩

/-- Two changes that may differ only in the `content` of `delete` entries. -/
def eqModDeleteContent (a b : Change) : Prop :=
  a.path = b.path ∧ a.type = b.type ∧
    (a.type = some CType.delete ∨ a.content = b.content)

theorem deployLoop_delete_content_irrelevant (env : DEnv) :
    ∀ ch1 ch2 : List Change, List.Forall₂ eqModDeleteContent ch1 ch2 →
      deployLoop env ch1 = deployLoop env ch2 := by
  intro ch1 ch2 h
  induction h with
  | nil => rfl
  | @cons a b l1 l2 hab _ ih =>
    obtain ⟨hp, ht, hco⟩ := hab
    unfold deployLoop
    by_cases hd : a.type = some CType.delete
    · simp only [hd, ht ▸ hd, if_true, ih, hp]
    · have hd2 : ¬ b.type = some CType.delete := ht ▸ hd
      have hco2 : a.content = b.content := hco.resolve_left hd
      simp only [hd, hd2, if_false, hco2, hp, ih]

/-- Claim C7, amended: `deployChanges` performs no delete-content
validation; the `content` of a `delete` entry is ignored entirely — the
call's result and its remote-call trace are identical whether or not
delete entries carry content. -/
theorem deployChanges_delete_content_irrelevant (env : DEnv)
    (ch1 ch2 : List Change) (h : List.Forall₂ eqModDeleteContent ch1 ch2) :
    deployChanges env ch1 = deployChanges env ch2 := by
  unfold deployChanges deployChanges.deployAfterRef
  rw [deployLoop_delete_content_irrelevant env ch1 ch2 h]

/-- Witness for the amended C7: a delete entry with content `"x"` deploys
identically to the same delete entry with no content. -/
theorem deployChanges_delete_content_irrelevant_witness :
    deployChanges allOkD [⟨"a", some "x", some .delete⟩] =
      deployChanges allOkD [⟨"a", none, some .delete⟩] :=
  deployChanges_delete_content_irrelevant allOkD _ _
    (List.forall₂_cons.mpr ⟨⟨rfl, rfl, Or.inl rfl⟩, List.Forall₂.nil⟩)

/-! ## C4 — brand-new repository (zero commits) -/

/-- A `deployChanges` environment for a repository with zero commits: no
branch ref exists, so both `getRef` calls 404; every write would succeed. -/
def zeroCommitD : DEnv :=
  { allOkD with
    refMain := .error ⟨true, "Not Found"⟩
    refDefault := .error ⟨true, "Not Found"⟩ }

/-- Counterexample to C4 as stated: `deployChanges` (one of the two deploy
implementations the claim covers) does not support the zero-commit case —
with one `create` change it fails instead of producing a parentless
commit, because both branch-ref lookups fail and nothing handles the 404. -/
theorem deployChanges_fails_on_zero_commit_repo :
    (deployChanges zeroCommitD [⟨"a.txt", some "x", some .create⟩]).1
      = ⟨false, some "Not Found"⟩ := rfl

/-- A `pushToGithub` environment for a repository with zero commits in which
authentication, repository lookup and every write succeed. -/
def PZeroCommitAllOk (env : PEnv) : Prop :=
  env.accessToken = true ∧
  (∃ u, env.viewerLogin = .ok u) ∧
  env.repoGet = .ok () ∧
  (∃ e, env.refMain = .error e ∧ e.notFound = true) ∧
  (∀ c, ∃ s, env.createBlob c = .ok s) ∧
  (∀ b es, ∃ s, env.createTree b es = .ok s) ∧
  (∀ t ps, ∃ s, env.createCommit t ps = .ok s) ∧
  (∀ s, env.createRef s = .ok ())

/-- Claim C4, amended: in the `pushToGithub` pipeline, branch resolution
(`getLatestCommitInfo`) on a zero-commit repository returns
`{undefined, undefined}` rather than failing, and a push with one file then
succeeds, creating exactly one commit whose parent list is empty (via
`createRef`, since no branch existed).  `deployChanges`, by contrast, fails
on such a repository (see the counterexample). -/
theorem fresh_repo_first_commit (env : PEnv) (params : PushParams)
    (f : PFile) (q : String) (henv : PZeroCommitAllOk env)
    (hfiles : params.files = [f]) (hrn : ¬ jsTrim params.repoName = "")
    (hsan : sanitizePath f.path = .ok q) :
    (getLatestCommitInfo env).2 = .ok (none, none) ∧
    (pushToGithub env params).1.success = true ∧
    (∃ c, (pushToGithub env params).1.commitSha = some c) ∧
    (∃ t, GitEv.createCommit t [] ∈ (pushToGithub env params).2) := by
  obtain ⟨hat, ⟨u, hu⟩, hrg, ⟨e, hrm, h404⟩, hb, htr, hcm, hcr⟩ := henv
  have hinfo : getLatestCommitInfo env = ([.getRefMain], .ok (none, none)) := by
    unfold getLatestCommitInfo
    rw [hrm]
    simp [h404]
  rcases hb f.content with ⟨s, hs⟩
  rcases htr none [⟨q, some s⟩] with ⟨tSha, htr1⟩
  rcases hcm tSha [] with ⟨cSha, hcm1⟩
  have hpush : pushToGithub env params =
      (⟨true, none,
          some ("https://github.com/" ++ u ++ "/" ++ jsTrim params.repoName),
          some cSha⟩,
        [.getAuthUser, .getRepo, .getRefMain, .createBlob f.content,
          .createTree none [⟨q, some s⟩], .createCommit tSha [],
          .createRef cSha]) := by
    simp [pushToGithub, ensureRepository, pushBlobs, sanitizeAll, Except.map,
      hat, hfiles, hu, hrg, hinfo, hsan, hs, htr1, hcm1, hcr, hrn]
  refine ⟨by rw [hinfo], ?_, ?_, ?_⟩
  · rw [hpush]
  · rw [hpush]
    exact ⟨cSha, rfl⟩
  · rw [hpush]
    exact ⟨tSha, by simp⟩

/-- Witness for the amended C4 on a concrete zero-commit environment. -/
theorem fresh_repo_first_commit_witness :
    (getLatestCommitInfo zeroCommitP).2 = .ok (none, none) ∧
    (pushToGithub zeroCommitP ⟨"repo", [⟨"a.txt", "hi"⟩], none, none, none⟩).1.success
      = true ∧
    (∃ c, (pushToGithub zeroCommitP
        ⟨"repo", [⟨"a.txt", "hi"⟩], none, none, none⟩).1.commitSha = some c) ∧
    (∃ t, GitEv.createCommit t [] ∈
      (pushToGithub zeroCommitP ⟨"repo", [⟨"a.txt", "hi"⟩], none, none, none⟩).2) :=
  fresh_repo_first_commit zeroCommitP ⟨"repo", [⟨"a.txt", "hi"⟩], none, none, none⟩
    ⟨"a.txt", "hi"⟩ "a.txt"
    ⟨rfl, ⟨"alice", rfl⟩, rfl, ⟨⟨true, "Not Found"⟩, rfl, rfl⟩,
      fun c => ⟨"B-" ++ c, rfl⟩, fun _ _ => ⟨"T1", rfl⟩,
      fun _ _ => ⟨"C1", rfl⟩, fun _ => rfl⟩
    rfl (by decide) rfl

/-! ## Trace facts about the change loop -/

theorem deployLoop_trace_blobs (env : DEnv) :
    ∀ ch ev, ev ∈ (deployLoop env ch).1 → ∃ cnt, ev = .createBlob cnt := by
  intro ch
  induction ch with
  | nil => intro ev h; simp [deployLoop] at h
  | cons c rest ih =>
    intro ev h
    unfold deployLoop at h
    by_cases hd : c.type = some CType.delete
    · simp only [hd, if_true] at h
      exact ih ev h
    · simp only [hd, if_false] at h
      cases hcc : c.content with
      | none => rw [hcc] at h; simp at h
      | some cnt =>
        rw [hcc] at h
        dsimp only at h
        cases hcb : env.createBlob cnt with
        | error e =>
          rw [hcb] at h
          simp at h
          exact ⟨cnt, h⟩
        | ok s =>
          rw [hcb] at h
          dsimp only at h
          rcases List.mem_cons.mp h with h1 | h1
          · exact ⟨cnt, h1⟩
          · exact ih ev h1

theorem not_mem_deployLoop_createTree (env : DEnv) (ch : List Change)
    (b : Option Sha) (es : List TreeEntry) :
    GitEv.createTree b es ∉ (deployLoop env ch).1 := by
  intro h
  rcases deployLoop_trace_blobs env ch _ h with ⟨cnt, h1⟩
  exact absurd h1 (by simp)

theorem not_mem_deployLoop_createCommit (env : DEnv) (ch : List Change)
    (t : Sha) (ps : List Sha) :
    GitEv.createCommit t ps ∉ (deployLoop env ch).1 := by
  intro h
  rcases deployLoop_trace_blobs env ch _ h with ⟨cnt, h1⟩
  exact absurd h1 (by simp)

theorem not_mem_deployLoop_updateRefMain (env : DEnv) (ch : List Change)
    (s : Sha) : GitEv.updateRefMain s ∉ (deployLoop env ch).1 := by
  intro h
  rcases deployLoop_trace_blobs env ch _ h with ⟨cnt, h1⟩
  exact absurd h1 (by simp)

theorem not_mem_deployLoop_updateRefDefault (env : DEnv) (ch : List Change)
    (s : Sha) : GitEv.updateRefDefault s ∉ (deployLoop env ch).1 := by
  intro h
  rcases deployLoop_trace_blobs env ch _ h with ⟨cnt, h1⟩
  exact absurd h1 (by simp)

theorem deployLoop_blob_from_change (env : DEnv) :
    ∀ ch cnt, GitEv.createBlob cnt ∈ (deployLoop env ch).1 →
      ∃ c ∈ ch, c.type ≠ some CType.delete ∧ c.content = some cnt := by
  intro ch
  induction ch with
  | nil => intro cnt h; simp [deployLoop] at h
  | cons c rest ih =>
    intro cnt h
    unfold deployLoop at h
    by_cases hd : c.type = some CType.delete
    · simp only [hd, if_true] at h
      rcases ih cnt h with ⟨d, hd1, hd2⟩
      exact ⟨d, List.mem_cons_of_mem c hd1, hd2⟩
    · simp only [hd, if_false] at h
      cases hcc : c.content with
      | none => rw [hcc] at h; simp at h
      | some cnt' =>
        rw [hcc] at h
        dsimp only at h
        cases hcb : env.createBlob cnt' with
        | error e =>
          rw [hcb] at h
          simp at h
          exact ⟨c, List.mem_cons_self c rest, hd, by rw [hcc, h]⟩
        | ok s =>
          rw [hcb] at h
          dsimp only at h
          rcases List.mem_cons.mp h with h1 | h1
          · have : cnt = cnt' := by
              have := GitEv.createBlob.inj h1
              exact this
            exact ⟨c, List.mem_cons_self c rest, hd, by rw [hcc, this]⟩
          · rcases ih cnt h1 with ⟨d, hd1, hd2⟩
            exact ⟨d, List.mem_cons_of_mem c hd1, hd2⟩

/-- A blob-creation failure fails the whole change loop. -/
theorem deployLoop_mem_fail (env : DEnv) :
    ∀ ch cnt e, GitEv.createBlob cnt ∈ (deployLoop env ch).1 →
      env.createBlob cnt = .error e → (deployLoop env ch).2 = .error e := by
  intro ch
  induction ch with
  | nil => intro cnt e h; simp [deployLoop] at h
  | cons c rest ih =>
    intro cnt e h hcb
    unfold deployLoop
    unfold deployLoop at h
    by_cases hd : c.type = some CType.delete
    · simp only [hd, if_true] at h ⊢
      rw [ih cnt e h hcb]
      rfl
    · simp only [hd, if_false] at h ⊢
      cases hcc : c.content with
      | none => rw [hcc] at h; simp at h
      | some cnt' =>
        rw [hcc] at h
        dsimp only at h ⊢
        cases hcb' : env.createBlob cnt' with
        | error e' =>
          rw [hcb'] at h
          dsimp only at h ⊢
          simp at h
          rw [h] at hcb
          rw [hcb] at hcb'
          injection hcb' with he
          rw [he]
        | ok s =>
          rw [hcb'] at h
          dsimp only at h ⊢
          rcases List.mem_cons.mp h with h1 | h1
          · have hcnt : cnt = cnt' := GitEv.createBlob.inj h1
            rw [hcnt] at hcb
            rw [hcb] at hcb'
            cases hcb'
          · rw [ih cnt e h1 hcb]
            rfl

/-- The relation claim C6 asserts between one change and its tree-overlay
entry: same path; a null object reference for a `delete`; for anything else
the blob id minted from the entry's own content. -/
def entryMatches (env : DEnv) (c : Change) (e : TreeEntry) : Prop :=
  e.path = c.path ∧
  (c.type = some CType.delete → e.sha = none) ∧
  (c.type ≠ some CType.delete →
    ∃ cnt s, c.content = some cnt ∧ env.createBlob cnt = .ok s ∧
      e.sha = some s)

theorem deployLoop_entries_spec (env : DEnv) :
    ∀ ch es, (deployLoop env ch).2 = .ok es →
      List.Forall₂ (entryMatches env) ch es := by
  intro ch
  induction ch with
  | nil =>
    intro es h
    unfold deployLoop at h
    simp at h
    subst h
    exact List.Forall₂.nil
  | cons c rest ih =>
    intro es h
    unfold deployLoop at h
    by_cases hd : c.type = some CType.delete
    · simp only [hd, if_true] at h
      cases hr : (deployLoop env rest).2 with
      | error e => rw [hr] at h; simp [Except.map] at h
      | ok es' =>
        rw [hr] at h
        simp only [Prod.snd, Except.map, Except.ok.injEq] at h
        subst h
        exact List.Forall₂.cons
          ⟨rfl, fun _ => rfl, fun hnd => absurd hd hnd⟩ (ih es' hr)
    · simp only [hd, if_false] at h
      cases hcc : c.content with
      | none => rw [hcc] at h; simp at h
      | some cnt =>
        rw [hcc] at h
        dsimp only at h
        cases hcb : env.createBlob cnt with
        | error e => rw [hcb] at h; simp at h
        | ok s =>
          rw [hcb] at h
          dsimp only at h
          cases hr : (deployLoop env rest).2 with
          | error e => rw [hr] at h; simp [Except.map] at h
          | ok es' =>
            rw [hr] at h
            simp only [Prod.snd, Except.map, Except.ok.injEq] at h
            subst h
            exact List.Forall₂.cons
              ⟨rfl, fun hdel => absurd hdel hd,
                fun _ => ⟨cnt, s, hcc, hcb, rfl⟩⟩ (ih es' hr)

/-- Any `createTree` call recorded by `deployChanges` received exactly the
entry list produced by the change loop. -/
theorem deployChanges_createTree_origin (env : DEnv) (ch : List Change)
    (b : Option Sha) (es : List TreeEntry)
    (h : GitEv.createTree b es ∈ (deployChanges env ch).2) :
    (deployLoop env ch).2 = .ok es := by
  unfold deployChanges deployChanges.deployAfterRef at h
  dsimp only at h
  repeat' split at h
  all_goals
    simp_all [not_mem_deployLoop_createTree]

/-- Any blob creation recorded by `deployChanges` came from the change
loop. -/
theorem deployChanges_blob_origin (env : DEnv) (ch : List Change)
    (cnt : String) (h : GitEv.createBlob cnt ∈ (deployChanges env ch).2) :
    GitEv.createBlob cnt ∈ (deployLoop env ch).1 := by
  unfold deployChanges deployChanges.deployAfterRef at h
  dsimp only at h
  repeat' split at h
  all_goals simp_all

/-- Claim C6: whenever `deployChanges` submits a tree overlay, the submitted
entry list has exactly one entry per change, in order: a `delete` maps to a
null object reference, anything else to the blob id created from its own
content; and every blob-creation call in the whole run came from a
non-`delete` change's content (so `delete` entries never trigger one). -/
theorem deploy_tree_overlay_spec (env : DEnv) (ch : List Change)
    (b : Option Sha) (es : List TreeEntry)
    (h : GitEv.createTree b es ∈ (deployChanges env ch).2) :
    es.length = ch.length ∧
    List.Forall₂ (entryMatches env) ch es ∧
    (∀ cnt, GitEv.createBlob cnt ∈ (deployChanges env ch).2 →
      ∃ c ∈ ch, c.type ≠ some CType.delete ∧ c.content = some cnt) := by
  have h1 := deployLoop_entries_spec env ch es
    (deployChanges_createTree_origin env ch b es h)
  exact ⟨h1.length_eq.symm, h1,
    fun cnt hcnt => deployLoop_blob_from_change env ch cnt
      (deployChanges_blob_origin env ch cnt hcnt)⟩

/-- Witness for C6 on a concrete mixed change-set (one `update`, one
`delete`). -/
theorem deploy_tree_overlay_spec_witness :
    ([⟨"a", some "B-x"⟩, ⟨"b", none⟩] : List TreeEntry).length =
      ([⟨"a", some "x", some .update⟩, ⟨"b", none, some .delete⟩] :
        List Change).length ∧
    List.Forall₂ (entryMatches allOkD)
      [⟨"a", some "x", some .update⟩, ⟨"b", none, some .delete⟩]
      [⟨"a", some "B-x"⟩, ⟨"b", none⟩] ∧
    (∀ cnt, GitEv.createBlob cnt ∈
        (deployChanges allOkD
          [⟨"a", some "x", some .update⟩, ⟨"b", none, some .delete⟩]).2 →
      ∃ c ∈ ([⟨"a", some "x", some .update⟩, ⟨"b", none, some .delete⟩] :
          List Change),
        c.type ≠ some CType.delete ∧ c.content = some cnt) :=
  deploy_tree_overlay_spec allOkD
    [⟨"a", some "x", some .update⟩, ⟨"b", none, some .delete⟩]
    (some "T0") [⟨"a", some "B-x"⟩, ⟨"b", none⟩] (by decide)

/-! ## C3 — atomicity of the deployment pipeline -/

/-- Events that only read refs or repository metadata. -/
def isRefRead (ev : GitEv) : Prop :=
  ev = .getRefMain ∨ ev = .getRepo ∨ ev = .getRefDefault

theorem trace_tail1 (l : List GitEv) (a : GitEv) (ha : isRefWrite a) :
    ∃ pre ev, l ++ [a] = pre ++ [ev] ∧ isRefWrite ev :=
  ⟨l, a, rfl, ha⟩

theorem trace_tail3 (l : List GitEv) (a b c : GitEv) (hc : isRefWrite c) :
    ∃ pre ev, l ++ [a, b, c] = pre ++ [ev] ∧ isRefWrite ev :=
  ⟨l ++ [a, b], c, by simp, hc⟩

theorem refReads_facts {tr0 : List GitEv} (h0 : ∀ ev ∈ tr0, isRefRead ev) :
    (∀ s, GitEv.updateRefMain s ∉ tr0) ∧
    (∀ s, GitEv.updateRefDefault s ∉ tr0) ∧
    (∀ s, GitEv.createRef s ∉ tr0) ∧
    (∀ cnt, GitEv.createBlob cnt ∉ tr0) ∧
    (∀ b es, GitEv.createTree b es ∉ tr0) ∧
    (∀ t ps, GitEv.createCommit t ps ∉ tr0) := by
  refine ⟨?_, ?_, ?_, ?_, ?_, ?_⟩
  · intro s hmem; rcases h0 _ hmem with h | h | h <;> simp at h
  · intro s hmem; rcases h0 _ hmem with h | h | h <;> simp at h
  · intro s hmem; rcases h0 _ hmem with h | h | h <;> simp at h
  · intro cnt hmem; rcases h0 _ hmem with h | h | h <;> simp at h
  · intro b es hmem; rcases h0 _ hmem with h | h | h <;> simp at h
  · intro t ps hmem; rcases h0 _ hmem with h | h | h <;> simp at h

/-- In `deployAfterRef`, a moved branch ref implies the run succeeded and
the successful ref write is the very last remote call of the trace. -/
theorem afterRef_refMoved (env : DEnv) (ch : List Change) (sha : Sha)
    (tr0 : List GitEv) (h0 : ∀ ev ∈ tr0, isRefRead ev) :
    ∀ r tr, deployChanges.deployAfterRef env ch sha tr0 = (r, tr) →
      dRefMoved env tr →
      r.success = true ∧ ∃ pre ev, tr = pre ++ [ev] ∧ isRefWrite ev := by
  intro r tr hE hm
  obtain ⟨hw1, hw2, -, -, -, -⟩ := refReads_facts h0
  unfold deployChanges.deployAfterRef at hE
  dsimp only at hE
  cases hct : env.commitTree sha with
  | error e1 =>
    rw [hct] at hE
    dsimp only at hE
    injection hE with h1 h2
    subst h1; subst h2
    exfalso
    rcases hm with ⟨s, hmem, _⟩ | ⟨s, hmem, _⟩ <;>
      simp [List.mem_append, hw1, hw2] at hmem
  | ok baseTree =>
    rw [hct] at hE
    dsimp only at hE
    cases hlp : (deployLoop env ch).2 with
    | error e1 =>
      rw [hlp] at hE
      dsimp only at hE
      injection hE with h1 h2
      subst h1; subst h2
      exfalso
      rcases hm with ⟨s, hmem, _⟩ | ⟨s, hmem, _⟩ <;>
        simp [List.mem_append, hw1, hw2, not_mem_deployLoop_updateRefMain,
          not_mem_deployLoop_updateRefDefault] at hmem
    | ok entries =>
      rw [hlp] at hE
      dsimp only at hE
      cases htr : env.createTree (some baseTree) entries with
      | error e1 =>
        rw [htr] at hE
        dsimp only at hE
        injection hE with h1 h2
        subst h1; subst h2
        exfalso
        rcases hm with ⟨s, hmem, _⟩ | ⟨s, hmem, _⟩ <;>
          simp [List.mem_append, hw1, hw2, not_mem_deployLoop_updateRefMain,
            not_mem_deployLoop_updateRefDefault] at hmem
      | ok newTree =>
        rw [htr] at hE
        dsimp only at hE
        cases hcm : env.createCommit newTree [sha] with
        | error e1 =>
          rw [hcm] at hE
          dsimp only at hE
          injection hE with h1 h2
          subst h1; subst h2
          exfalso
          rcases hm with ⟨s, hmem, _⟩ | ⟨s, hmem, _⟩ <;>
            simp [List.mem_append, hw1, hw2, not_mem_deployLoop_updateRefMain,
              not_mem_deployLoop_updateRefDefault] at hmem
        | ok newSha =>
          rw [hcm] at hE
          dsimp only at hE
          cases hum : env.updateRefMain newSha with
          | ok u =>
            rw [hum] at hE
            dsimp only at hE
            injection hE with h1 h2
            subst h1; subst h2
            exact ⟨rfl, trace_tail1 _ _ trivial⟩
          | error e1 =>
            rw [hum] at hE
            dsimp only at hE
            cases hdb : env.defaultBranch with
            | error e2 =>
              rw [hdb] at hE
              dsimp only at hE
              injection hE with h1 h2
              subst h1; subst h2
              exfalso
              rcases hm with ⟨s, hmem, hok⟩ | ⟨s, hmem, hok⟩ <;>
                simp [List.mem_append, List.mem_cons, hw1, hw2,
                  not_mem_deployLoop_updateRefMain,
                  not_mem_deployLoop_updateRefDefault] at hmem
              · rw [hmem] at hok
                rw [hok] at hum
                cases hum
            | ok dflt =>
              rw [hdb] at hE
              dsimp only at hE
              cases hud : env.updateRefDefault newSha with
              | ok u =>
                rw [hud] at hE
                dsimp only at hE
                injection hE with h1 h2
                subst h1; subst h2
                exact ⟨rfl, trace_tail3 _ _ _ _ trivial⟩
              | error e2 =>
                rw [hud] at hE
                dsimp only at hE
                injection hE with h1 h2
                subst h1; subst h2
                exfalso
                rcases hm with ⟨s, hmem, hok⟩ | ⟨s, hmem, hok⟩ <;>
                  simp [List.mem_append, List.mem_cons, hw1, hw2,
                    not_mem_deployLoop_updateRefMain,
                    not_mem_deployLoop_updateRefDefault] at hmem
                · rw [hmem] at hok
                  rw [hok] at hum
                  cases hum
                · rw [hmem] at hok
                  rw [hok] at hud
                  cases hud

/-- In `deployAfterRef`, once some blob creation has failed, the run fails
and no tree composition, commit creation or ref write is ever attempted. -/
theorem afterRef_blobfail (env : DEnv) (ch : List Change) (sha : Sha)
    (tr0 : List GitEv) (h0 : ∀ ev ∈ tr0, isRefRead ev)
    (cnt : String) (e : GErr) (hcb : env.createBlob cnt = .error e) :
    ∀ r tr, deployChanges.deployAfterRef env ch sha tr0 = (r, tr) →
      GitEv.createBlob cnt ∈ tr →
      r.success = false ∧
      (∀ b es, GitEv.createTree b es ∉ tr) ∧
      (∀ t ps, GitEv.createCommit t ps ∉ tr) ∧
      (∀ ev ∈ tr, ¬ isRefWrite ev) := by
  intro r tr hE hmem
  obtain ⟨-, -, -, hw4, hw5, hw6⟩ := refReads_facts h0
  unfold deployChanges.deployAfterRef at hE
  dsimp only at hE
  cases hct : env.commitTree sha with
  | error e1 =>
    rw [hct] at hE
    dsimp only at hE
    injection hE with h1 h2
    subst h1; subst h2
    exfalso
    simp [List.mem_append, hw4] at hmem
  | ok baseTree =>
    rw [hct] at hE
    dsimp only at hE
    cases hlp : (deployLoop env ch).2 with
    | error e1 =>
      rw [hlp] at hE
      dsimp only at hE
      injection hE with h1 h2
      subst h1; subst h2
      refine ⟨rfl, ?_, ?_, ?_⟩
      · intro b es hc
        simp [List.mem_append, hw5, not_mem_deployLoop_createTree] at hc
      · intro t ps hc
        simp [List.mem_append, hw6, not_mem_deployLoop_createCommit] at hc
      · intro ev hev
        simp only [List.mem_append, List.mem_singleton] at hev
        rcases hev with (hev | hev) | hev
        · rcases h0 _ hev with h | h | h <;> rw [h] <;> simp [isRefWrite]
        · rw [hev]; simp [isRefWrite]
        · rcases deployLoop_trace_blobs env ch ev hev with ⟨c, rfl⟩
          simp [isRefWrite]
    | ok entries =>
      rw [hlp] at hE
      dsimp only at hE
      have hblob : GitEv.createBlob cnt ∈ (deployLoop env ch).1 → False := by
        intro hmem2
        have hfail := deployLoop_mem_fail env ch cnt e hmem2 hcb
        rw [hlp] at hfail
        cases hfail
      cases htr : env.createTree (some baseTree) entries with
      | error e1 =>
        rw [htr] at hE
        dsimp only at hE
        injection hE with h1 h2
        subst h1; subst h2
        exfalso
        simp [List.mem_append, hw4] at hmem
        exact hblob hmem
      | ok newTree =>
        rw [htr] at hE
        dsimp only at hE
        cases hcm : env.createCommit newTree [sha] with
        | error e1 =>
          rw [hcm] at hE
          dsimp only at hE
          injection hE with h1 h2
          subst h1; subst h2
          exfalso
          simp [List.mem_append, hw4] at hmem
          exact hblob hmem
        | ok newSha =>
          rw [hcm] at hE
          dsimp only at hE
          cases hum : env.updateRefMain newSha with
          | ok u =>
            rw [hum] at hE
            dsimp only at hE
            injection hE with h1 h2
            subst h1; subst h2
            exfalso
            simp [List.mem_append, hw4] at hmem
            exact hblob hmem
          | error e1 =>
            rw [hum] at hE
            dsimp only at hE
            cases hdb : env.defaultBranch with
            | error e2 =>
              rw [hdb] at hE
              dsimp only at hE
              injection hE with h1 h2
              subst h1; subst h2
              exfalso
              simp [List.mem_append, hw4] at hmem
              exact hblob hmem
            | ok dflt =>
              rw [hdb] at hE
              dsimp only at hE
              cases hud : env.updateRefDefault newSha with
              | ok u =>
                rw [hud] at hE
                dsimp only at hE
                injection hE with h1 h2
                subst h1; subst h2
                exfalso
                simp [List.mem_append, hw4] at hmem
                exact hblob hmem
              | error e2 =>
                rw [hud] at hE
                dsimp only at hE
                injection hE with h1 h2
                subst h1; subst h2
                exfalso
                simp [List.mem_append, hw4] at hmem
                exact hblob hmem

theorem isRefRead_one : ∀ ev ∈ [GitEv.getRefMain], isRefRead ev := by
  intro ev h
  simp at h
  rw [h]
  exact Or.inl rfl

theorem isRefRead_three :
    ∀ ev ∈ [GitEv.getRefMain, GitEv.getRepo, GitEv.getRefDefault],
      isRefRead ev := by
  intro ev h
  rcases List.mem_cons.mp h with h1 | h1
  · rw [h1]; exact Or.inl rfl
  rcases List.mem_cons.mp h1 with h2 | h2
  · rw [h2]; exact Or.inr (Or.inl rfl)
  · simp at h2
    rw [h2]
    exact Or.inr (Or.inr rfl)

/-- `deployChanges`: a moved branch ref implies a successful run whose last
remote call is the successful ref write. -/
theorem deployChanges_refMoved (env : DEnv) (ch : List Change)
    (hm : dRefMoved env (deployChanges env ch).2) :
    (deployChanges env ch).1.success = true ∧
    ∃ pre ev, (deployChanges env ch).2 = pre ++ [ev] ∧ isRefWrite ev := by
  rcases hE : deployChanges env ch with ⟨r, tr⟩
  rw [hE] at hm
  dsimp only at hm ⊢
  unfold deployChanges at hE
  cases hat : env.accessToken with
  | false =>
    rw [hat] at hE
    try dsimp only at hE
    try simp only [Bool.not_false, Bool.not_true] at hE
    try rw [if_pos rfl] at hE
    try rw [if_neg Bool.false_ne_true] at hE
    try dsimp only at hE
    injection hE with h1 h2
    subst h1; subst h2
    exfalso
    rcases hm with ⟨s, hmem, _⟩ | ⟨s, hmem, _⟩ <;> simp at hmem
  | true =>
    rw [hat] at hE
    try dsimp only at hE
    try simp only [Bool.not_false, Bool.not_true] at hE
    try rw [if_pos rfl] at hE
    try rw [if_neg Bool.false_ne_true] at hE
    try dsimp only at hE
    cases hrm : env.refMain with
    | ok sha =>
      rw [hrm] at hE
      dsimp only at hE
      exact afterRef_refMoved env ch sha [.getRefMain] isRefRead_one r tr hE hm
    | error e0 =>
      rw [hrm] at hE
      dsimp only at hE
      cases hdb : env.defaultBranch with
      | error e1 =>
        rw [hdb] at hE
        dsimp only at hE
        injection hE with h1 h2
        subst h1; subst h2
        exfalso
        rcases hm with ⟨s, hmem, _⟩ | ⟨s, hmem, _⟩ <;> simp at hmem
      | ok dflt =>
        rw [hdb] at hE
        dsimp only at hE
        cases hrd : env.refDefault with
        | error e1 =>
          rw [hrd] at hE
          dsimp only at hE
          injection hE with h1 h2
          subst h1; subst h2
          exfalso
          rcases hm with ⟨s, hmem, _⟩ | ⟨s, hmem, _⟩ <;> simp at hmem
        | ok sha =>
          rw [hrd] at hE
          dsimp only at hE
          exact afterRef_refMoved env ch sha
            [.getRefMain, .getRepo, .getRefDefault] isRefRead_three r tr hE hm

/-- `deployChanges`: after a blob-creation failure the run fails and no tree
composition, commit creation or ref write is attempted. -/
theorem deployChanges_blobfail (env : DEnv) (ch : List Change)
    (cnt : String) (e : GErr) (hcb : env.createBlob cnt = .error e)
    (hmem : GitEv.createBlob cnt ∈ (deployChanges env ch).2) :
    (deployChanges env ch).1.success = false ∧
    (∀ b es, GitEv.createTree b es ∉ (deployChanges env ch).2) ∧
    (∀ t ps, GitEv.createCommit t ps ∉ (deployChanges env ch).2) ∧
    (∀ ev ∈ (deployChanges env ch).2, ¬ isRefWrite ev) := by
  rcases hE : deployChanges env ch with ⟨r, tr⟩
  rw [hE] at hmem
  dsimp only at hmem ⊢
  unfold deployChanges at hE
  cases hat : env.accessToken with
  | false =>
    rw [hat] at hE
    try dsimp only at hE
    try simp only [Bool.not_false, Bool.not_true] at hE
    try rw [if_pos rfl] at hE
    try rw [if_neg Bool.false_ne_true] at hE
    try dsimp only at hE
    injection hE with h1 h2
    subst h1; subst h2
    simp at hmem
  | true =>
    rw [hat] at hE
    try dsimp only at hE
    try simp only [Bool.not_false, Bool.not_true] at hE
    try rw [if_pos rfl] at hE
    try rw [if_neg Bool.false_ne_true] at hE
    try dsimp only at hE
    cases hrm : env.refMain with
    | ok sha =>
      rw [hrm] at hE
      dsimp only at hE
      exact afterRef_blobfail env ch sha [.getRefMain] isRefRead_one
        cnt e hcb r tr hE hmem
    | error e0 =>
      rw [hrm] at hE
      dsimp only at hE
      cases hdb : env.defaultBranch with
      | error e1 =>
        rw [hdb] at hE
        dsimp only at hE
        injection hE with h1 h2
        subst h1; subst h2
        simp at hmem
      | ok dflt =>
        rw [hdb] at hE
        dsimp only at hE
        cases hrd : env.refDefault with
        | error e1 =>
          rw [hrd] at hE
          dsimp only at hE
          injection hE with h1 h2
          subst h1; subst h2
          simp at hmem
        | ok sha =>
          rw [hrd] at hE
          dsimp only at hE
          exact afterRef_blobfail env ch sha
            [.getRefMain, .getRepo, .getRefDefault] isRefRead_three
            cnt e hcb r tr hE hmem

theorem ensureRepository_trace (env : PEnv) :
    ∀ ev ∈ (ensureRepository env).1, ev = .getRepo ∨ ev = .createRepo := by
  intro ev h
  unfold ensureRepository at h
  cases hrg : env.repoGet with
  | ok u => rw [hrg] at h; simp at h; exact Or.inl h
  | error e =>
    rw [hrg] at h
    dsimp only at h
    by_cases hnf : e.notFound = true
    · simp only [hnf, if_true] at h
      cases hcr : env.createRepo with
      | ok u => rw [hcr] at h; simp at h; exact h
      | error e2 => rw [hcr] at h; simp at h; exact h
    · simp only [hnf, if_false] at h
      simp at h
      exact Or.inl h

theorem getLatestCommitInfo_trace (env : PEnv) :
    ∀ ev ∈ (getLatestCommitInfo env).1,
      ev = .getRefMain ∨ ∃ s, ev = .getCommit s := by
  intro ev h
  unfold getLatestCommitInfo at h
  cases hrm : env.refMain with
  | error e =>
    rw [hrm] at h
    dsimp only at h
    by_cases hnf : e.notFound = true <;> simp [hnf] at h <;> exact Or.inl h
  | ok sha =>
    rw [hrm] at h
    dsimp only at h
    cases hct : env.commitTree sha with
    | error e =>
      rw [hct] at h
      dsimp only at h
      by_cases hnf : e.notFound = true <;> simp [hnf] at h <;>
        rcases h with h | h
      · exact Or.inl h
      · exact Or.inr ⟨sha, h⟩
      · exact Or.inl h
      · exact Or.inr ⟨sha, h⟩
    | ok t =>
      rw [hct] at h
      simp at h
      rcases h with h | h
      · exact Or.inl h
      · exact Or.inr ⟨sha, h⟩

theorem pushBlobs_trace (env : PEnv) :
    ∀ fs ev, ev ∈ (pushBlobs env fs).1 → ∃ cnt, ev = .createBlob cnt := by
  intro fs
  induction fs with
  | nil => intro ev h; simp [pushBlobs] at h
  | cons f rest ih =>
    intro ev h
    unfold pushBlobs at h
    cases hcb : env.createBlob f.content with
    | error e => rw [hcb] at h; simp at h; exact ⟨f.content, h⟩
    | ok s =>
      rw [hcb] at h
      dsimp only at h
      rcases List.mem_cons.mp h with h1 | h1
      · exact ⟨f.content, h1⟩
      · exact ih ev h1

theorem pushBlobs_mem_fail (env : PEnv) :
    ∀ fs cnt e, GitEv.createBlob cnt ∈ (pushBlobs env fs).1 →
      env.createBlob cnt = .error e → (pushBlobs env fs).2 = .error e := by
  intro fs
  induction fs with
  | nil => intro cnt e h; simp [pushBlobs] at h
  | cons f rest ih =>
    intro cnt e h hcb
    unfold pushBlobs
    unfold pushBlobs at h
    cases hcb' : env.createBlob f.content with
    | error e' =>
      rw [hcb'] at h
      dsimp only at h ⊢
      simp at h
      rw [h] at hcb
      rw [hcb] at hcb'
      injection hcb' with he
      rw [he]
    | ok s =>
      rw [hcb'] at h
      dsimp only at h ⊢
      rcases List.mem_cons.mp h with h1 | h1
      · have : cnt = f.content := GitEv.createBlob.inj h1
        rw [this] at hcb
        rw [hcb] at hcb'
        cases hcb'
      · rw [ih cnt e h1 hcb]
        rfl

theorem ens_not_mem (env : PEnv) :
    (∀ s, GitEv.updateRefMain s ∉ (ensureRepository env).1) ∧
    (∀ s, GitEv.createRef s ∉ (ensureRepository env).1) ∧
    (∀ cnt, GitEv.createBlob cnt ∉ (ensureRepository env).1) ∧
    (∀ b es, GitEv.createTree b es ∉ (ensureRepository env).1) ∧
    (∀ t ps, GitEv.createCommit t ps ∉ (ensureRepository env).1) ∧
    (∀ ev ∈ (ensureRepository env).1, ¬ isRefWrite ev) := by
  refine ⟨?_, ?_, ?_, ?_, ?_, ?_⟩
  · intro a h; rcases ensureRepository_trace env _ h with h1 | h1 <;> simp at h1
  · intro a h; rcases ensureRepository_trace env _ h with h1 | h1 <;> simp at h1
  · intro a h; rcases ensureRepository_trace env _ h with h1 | h1 <;> simp at h1
  · intro a b h
    rcases ensureRepository_trace env _ h with h1 | h1 <;> simp at h1
  · intro a b h
    rcases ensureRepository_trace env _ h with h1 | h1 <;> simp at h1
  · intro ev h hh
    rcases ensureRepository_trace env _ h with h1 | h1 <;> rw [h1] at hh <;>
      simp [isRefWrite] at hh

theorem info_not_mem (env : PEnv) :
    (∀ s, GitEv.updateRefMain s ∉ (getLatestCommitInfo env).1) ∧
    (∀ s, GitEv.createRef s ∉ (getLatestCommitInfo env).1) ∧
    (∀ cnt, GitEv.createBlob cnt ∉ (getLatestCommitInfo env).1) ∧
    (∀ b es, GitEv.createTree b es ∉ (getLatestCommitInfo env).1) ∧
    (∀ t ps, GitEv.createCommit t ps ∉ (getLatestCommitInfo env).1) ∧
    (∀ ev ∈ (getLatestCommitInfo env).1, ¬ isRefWrite ev) := by
  refine ⟨?_, ?_, ?_, ?_, ?_, ?_⟩
  · intro a h
    rcases getLatestCommitInfo_trace env _ h with h1 | ⟨s, h1⟩ <;> simp at h1
  · intro a h
    rcases getLatestCommitInfo_trace env _ h with h1 | ⟨s, h1⟩ <;> simp at h1
  · intro a h
    rcases getLatestCommitInfo_trace env _ h with h1 | ⟨s, h1⟩ <;> simp at h1
  · intro a b h
    rcases getLatestCommitInfo_trace env _ h with h1 | ⟨s, h1⟩ <;> simp at h1
  · intro a b h
    rcases getLatestCommitInfo_trace env _ h with h1 | ⟨s, h1⟩ <;> simp at h1
  · intro ev h hh
    rcases getLatestCommitInfo_trace env _ h with h1 | ⟨s, h1⟩ <;>
      rw [h1] at hh <;> simp [isRefWrite] at hh

theorem bl_not_mem (env : PEnv) (fs : List PFile) :
    (∀ s, GitEv.updateRefMain s ∉ (pushBlobs env fs).1) ∧
    (∀ s, GitEv.createRef s ∉ (pushBlobs env fs).1) ∧
    (∀ b es, GitEv.createTree b es ∉ (pushBlobs env fs).1) ∧
    (∀ t ps, GitEv.createCommit t ps ∉ (pushBlobs env fs).1) ∧
    (∀ ev ∈ (pushBlobs env fs).1, ¬ isRefWrite ev) := by
  refine ⟨?_, ?_, ?_, ?_, ?_⟩
  · intro a h; rcases pushBlobs_trace env fs _ h with ⟨cnt, h1⟩; simp at h1
  · intro a h; rcases pushBlobs_trace env fs _ h with ⟨cnt, h1⟩; simp at h1
  · intro a b h; rcases pushBlobs_trace env fs _ h with ⟨cnt, h1⟩; simp at h1
  · intro a b h; rcases pushBlobs_trace env fs _ h with ⟨cnt, h1⟩; simp at h1
  · intro ev h hh
    rcases pushBlobs_trace env fs _ h with ⟨cnt, h1⟩
    rw [h1] at hh
    simp [isRefWrite] at hh

/-- `pushToGithub`: a moved branch ref implies a successful run whose last
remote call is the successful ref write. -/
theorem pushToGithub_refMoved (env : PEnv) (pp : PushParams)
    (hm : pRefMoved env (pushToGithub env pp).2) :
    (pushToGithub env pp).1.success = true ∧
    ∃ pre ev, (pushToGithub env pp).2 = pre ++ [ev] ∧ isRefWrite ev := by
  obtain ⟨hens1, hens2, -, -, -, -⟩ := ens_not_mem env
  obtain ⟨hinfo1, hinfo2, -, -, -, -⟩ := info_not_mem env
  rcases hE : pushToGithub env pp with ⟨r, tr⟩
  rw [hE] at hm
  dsimp only at hm ⊢
  unfold pushToGithub at hE
  cases hat : env.accessToken with
  | false =>
    rw [hat] at hE
    simp only [Bool.not_false] at hE
    rw [if_pos trivial] at hE
    injection hE with h1 h2
    subst h1; subst h2
    exfalso
    rcases hm with ⟨s, hmem, _⟩ | ⟨s, hmem, _⟩ <;> simp at hmem
  | true =>
    rw [hat] at hE
    simp only [Bool.not_true] at hE
    rw [if_neg Bool.false_ne_true] at hE
    by_cases hrn : jsTrim pp.repoName = ""
    · rw [if_pos hrn] at hE
      injection hE with h1 h2
      subst h1; subst h2
      exfalso
      rcases hm with ⟨s, hmem, _⟩ | ⟨s, hmem, _⟩ <;> simp at hmem
    · rw [if_neg hrn] at hE
      cases hie : pp.files.isEmpty with
      | true =>
        rw [hie] at hE
        rw [if_pos rfl] at hE
        injection hE with h1 h2
        subst h1; subst h2
        exfalso
        rcases hm with ⟨s, hmem, _⟩ | ⟨s, hmem, _⟩ <;> simp at hmem
      | false =>
        rw [hie] at hE
        rw [if_neg Bool.false_ne_true] at hE
        cases hvl : env.viewerLogin with
        | error e =>
          rw [hvl] at hE
          dsimp only at hE
          injection hE with h1 h2
          subst h1; subst h2
          exfalso
          rcases hm with ⟨s, hmem, _⟩ | ⟨s, hmem, _⟩ <;> simp at hmem
        | ok owner =>
          rw [hvl] at hE
          dsimp only at hE
          cases hsa : sanitizeAll pp.files with
          | error m =>
            rw [hsa] at hE
            dsimp only at hE
            injection hE with h1 h2
            subst h1; subst h2
            exfalso
            rcases hm with ⟨s, hmem, _⟩ | ⟨s, hmem, _⟩ <;> simp at hmem
          | ok files =>
            rw [hsa] at hE
            dsimp only at hE
            obtain ⟨hbl1, hbl2, -, -, -⟩ := bl_not_mem env files
            cases hens : (ensureRepository env).2 with
            | error e =>
              rw [hens] at hE
              dsimp only at hE
              injection hE with h1 h2
              subst h1; subst h2
              exfalso
              rcases hm with ⟨s, hmem, _⟩ | ⟨s, hmem, _⟩ <;>
                simp [List.mem_cons, hens1, hens2] at hmem
            | ok u0 =>
              rw [hens] at hE
              dsimp only at hE
              cases hinfo : (getLatestCommitInfo env).2 with
              | error e =>
                rw [hinfo] at hE
                dsimp only at hE
                injection hE with h1 h2
                subst h1; subst h2
                exfalso
                rcases hm with ⟨s, hmem, _⟩ | ⟨s, hmem, _⟩ <;>
                  simp [List.mem_append, List.mem_cons, hens1, hens2,
                    hinfo1, hinfo2] at hmem
              | ok latest =>
                rw [hinfo] at hE
                dsimp only at hE
                obtain ⟨l1, l2⟩ := latest
                dsimp only at hE
                cases hbl : (pushBlobs env files).2 with
                | error e =>
                  rw [hbl] at hE
                  dsimp only at hE
                  injection hE with h1 h2
                  subst h1; subst h2
                  exfalso
                  rcases hm with ⟨s, hmem, _⟩ | ⟨s, hmem, _⟩ <;>
                    simp [List.mem_append, List.mem_cons, hens1, hens2,
                      hinfo1, hinfo2, hbl1, hbl2] at hmem
                | ok shas =>
                  rw [hbl] at hE
                  dsimp only at hE
                  cases htr : env.createTree l2
                      ((files.zip shas).map
                        (fun fs => ⟨fs.1.path, some fs.2⟩)) with
                  | error e =>
                    rw [htr] at hE
                    dsimp only at hE
                    injection hE with h1 h2
                    subst h1; subst h2
                    exfalso
                    rcases hm with ⟨s, hmem, _⟩ | ⟨s, hmem, _⟩ <;>
                      simp [List.mem_append, List.mem_cons, hens1, hens2,
                        hinfo1, hinfo2, hbl1, hbl2] at hmem
                  | ok treeSha =>
                    rw [htr] at hE
                    dsimp only at hE
                    cases l1 with
                    | some pSha =>
                      dsimp only at hE
                      cases hcm : env.createCommit treeSha [pSha] with
                      | error e =>
                        rw [hcm] at hE
                        dsimp only at hE
                        injection hE with h1 h2
                        subst h1; subst h2
                        exfalso
                        rcases hm with ⟨s, hmem, _⟩ | ⟨s, hmem, _⟩ <;>
                          simp [List.mem_append, List.mem_cons, hens1, hens2,
                            hinfo1, hinfo2, hbl1, hbl2] at hmem
                      | ok commitSha =>
                        rw [hcm] at hE
                        dsimp only at hE
                        cases hur : env.updateRef commitSha with
                        | ok u1 =>
                          rw [hur] at hE
                          dsimp only at hE
                          injection hE with h1 h2
                          subst h1; subst h2
                          exact ⟨rfl, trace_tail1 _ _ trivial⟩
                        | error e =>
                          rw [hur] at hE
                          dsimp only at hE
                          injection hE with h1 h2
                          subst h1; subst h2
                          exfalso
                          rcases hm with ⟨s, hmem, hok⟩ | ⟨s, hmem, hok⟩ <;>
                            simp [List.mem_append, List.mem_cons, hens1,
                              hens2, hinfo1, hinfo2, hbl1, hbl2] at hmem
                          rw [hmem] at hok
                          rw [hok] at hur
                          cases hur
                    | none =>
                      dsimp only at hE
                      cases hcm : env.createCommit treeSha [] with
                      | error e =>
                        rw [hcm] at hE
                        dsimp only at hE
                        injection hE with h1 h2
                        subst h1; subst h2
                        exfalso
                        rcases hm with ⟨s, hmem, _⟩ | ⟨s, hmem, _⟩ <;>
                          simp [List.mem_append, List.mem_cons, hens1, hens2,
                            hinfo1, hinfo2, hbl1, hbl2] at hmem
                      | ok commitSha =>
                        rw [hcm] at hE
                        dsimp only at hE
                        cases hcr : env.createRef commitSha with
                        | ok u1 =>
                          rw [hcr] at hE
                          dsimp only at hE
                          injection hE with h1 h2
                          subst h1; subst h2
                          exact ⟨rfl, trace_tail1 _ _ trivial⟩
                        | error e =>
                          rw [hcr] at hE
                          dsimp only at hE
                          injection hE with h1 h2
                          subst h1; subst h2
                          exfalso
                          rcases hm with ⟨s, hmem, hok⟩ | ⟨s, hmem, hok⟩ <;>
                            simp [List.mem_append, List.mem_cons, hens1,
                              hens2, hinfo1, hinfo2, hbl1, hbl2] at hmem
                          rw [hmem] at hok
                          rw [hok] at hcr
                          cases hcr

/-- `pushToGithub`: after a blob-creation failure the run fails and no tree
composition, commit creation or ref write is attempted. -/
theorem pushToGithub_blobfail (env : PEnv) (pp : PushParams)
    (cnt : String) (e : GErr) (hcb : env.createBlob cnt = .error e)
    (hmem : GitEv.createBlob cnt ∈ (pushToGithub env pp).2) :
    (pushToGithub env pp).1.success = false ∧
    (∀ b es, GitEv.createTree b es ∉ (pushToGithub env pp).2) ∧
    (∀ t ps, GitEv.createCommit t ps ∉ (pushToGithub env pp).2) ∧
    (∀ ev ∈ (pushToGithub env pp).2, ¬ isRefWrite ev) := by
  obtain ⟨-, -, hens3, hens4, hens5, hens6⟩ := ens_not_mem env
  obtain ⟨-, -, hinfo3, hinfo4, hinfo5, hinfo6⟩ := info_not_mem env
  rcases hE : pushToGithub env pp with ⟨r, tr⟩
  rw [hE] at hmem
  dsimp only at hmem ⊢
  unfold pushToGithub at hE
  cases hat : env.accessToken with
  | false =>
    rw [hat] at hE
    simp only [Bool.not_false] at hE
    rw [if_pos trivial] at hE
    injection hE with h1 h2
    subst h1; subst h2
    simp at hmem
  | true =>
    rw [hat] at hE
    simp only [Bool.not_true] at hE
    rw [if_neg Bool.false_ne_true] at hE
    by_cases hrn : jsTrim pp.repoName = ""
    · rw [if_pos hrn] at hE
      injection hE with h1 h2
      subst h1; subst h2
      simp at hmem
    · rw [if_neg hrn] at hE
      cases hie : pp.files.isEmpty with
      | true =>
        rw [hie] at hE
        rw [if_pos rfl] at hE
        injection hE with h1 h2
        subst h1; subst h2
        simp at hmem
      | false =>
        rw [hie] at hE
        rw [if_neg Bool.false_ne_true] at hE
        cases hvl : env.viewerLogin with
        | error e0 =>
          rw [hvl] at hE
          dsimp only at hE
          injection hE with h1 h2
          subst h1; subst h2
          simp at hmem
        | ok owner =>
          rw [hvl] at hE
          dsimp only at hE
          cases hsa : sanitizeAll pp.files with
          | error m =>
            rw [hsa] at hE
            dsimp only at hE
            injection hE with h1 h2
            subst h1; subst h2
            simp at hmem
          | ok files =>
            rw [hsa] at hE
            dsimp only at hE
            obtain ⟨-, -, hbl3, hbl4, hbl5⟩ := bl_not_mem env files
            cases hens : (ensureRepository env).2 with
            | error e0 =>
              rw [hens] at hE
              dsimp only at hE
              injection hE with h1 h2
              subst h1; subst h2
              exfalso
              simp [List.mem_cons, hens3] at hmem
            | ok u0 =>
              rw [hens] at hE
              dsimp only at hE
              cases hinfo : (getLatestCommitInfo env).2 with
              | error e0 =>
                rw [hinfo] at hE
                dsimp only at hE
                injection hE with h1 h2
                subst h1; subst h2
                exfalso
                simp [List.mem_append, List.mem_cons, hens3, hinfo3] at hmem
              | ok latest =>
                rw [hinfo] at hE
                dsimp only at hE
                obtain ⟨l1, l2⟩ := latest
                dsimp only at hE
                cases hbl : (pushBlobs env files).2 with
                | error e0 =>
                  rw [hbl] at hE
                  dsimp only at hE
                  injection hE with h1 h2
                  subst h1; subst h2
                  refine ⟨rfl, ?_, ?_, ?_⟩
                  · intro b es hc
                    simp [List.mem_append, List.mem_cons, hens4, hinfo4,
                      hbl3] at hc
                  · intro t ps hc
                    simp [List.mem_append, List.mem_cons, hens5, hinfo5,
                      hbl4] at hc
                  · intro ev hev
                    simp only [List.mem_cons, List.mem_append] at hev
                    rcases hev with ((hev | hev) | hev) | hev
                    · rw [hev]; simp [isRefWrite]
                    · exact hens6 ev hev
                    · exact hinfo6 ev hev
                    · exact hbl5 ev hev
                | ok shas =>
                  rw [hbl] at hE
                  dsimp only at hE
                  repeat' split at hE
                  all_goals
                    injection hE with h1 h2
                  all_goals
                    subst h1; subst h2
                  all_goals
                    exfalso
                  all_goals
                    simp [List.mem_append, List.mem_cons, hens3,
                      hinfo3] at hmem
                  all_goals
                    have hfail := pushBlobs_mem_fail env files cnt e hmem hcb
                  all_goals
                    rw [hbl] at hfail
                  all_goals
                    cases hfail

/-- An environment whose blob creation always fails. -/
def failBlobD : DEnv :=
  { allOkD with createBlob := fun _ => .error ⟨false, "boom"⟩ }

/-- Claim C3: in both deploy implementations, a failure of any operation
before the final ref update leaves the branch pointer unmoved (first and
third conjuncts, read contrapositively: a moved ref implies a fully
successful run, and the successful ref write is the run's last remote
call); and after a blob-creation failure the run fails with no tree
composition, no commit creation and no ref write ever attempted (second
and fourth conjuncts). -/
theorem deploy_atomicity :
    (∀ env ch, dRefMoved env (deployChanges env ch).2 →
        (deployChanges env ch).1.success = true ∧
        ∃ pre ev, (deployChanges env ch).2 = pre ++ [ev] ∧ isRefWrite ev) ∧
    (∀ env ch cnt e, env.createBlob cnt = .error e →
        GitEv.createBlob cnt ∈ (deployChanges env ch).2 →
        (deployChanges env ch).1.success = false ∧
        (∀ b es, GitEv.createTree b es ∉ (deployChanges env ch).2) ∧
        (∀ t ps, GitEv.createCommit t ps ∉ (deployChanges env ch).2) ∧
        (∀ ev ∈ (deployChanges env ch).2, ¬ isRefWrite ev)) ∧
    (∀ env pp, pRefMoved env (pushToGithub env pp).2 →
        (pushToGithub env pp).1.success = true ∧
        ∃ pre ev, (pushToGithub env pp).2 = pre ++ [ev] ∧ isRefWrite ev) ∧
    (∀ env pp cnt e, env.createBlob cnt = .error e →
        GitEv.createBlob cnt ∈ (pushToGithub env pp).2 →
        (pushToGithub env pp).1.success = false ∧
        (∀ b es, GitEv.createTree b es ∉ (pushToGithub env pp).2) ∧
        (∀ t ps, GitEv.createCommit t ps ∉ (pushToGithub env pp).2) ∧
        (∀ ev ∈ (pushToGithub env pp).2, ¬ isRefWrite ev)) :=
  ⟨fun env ch hm => deployChanges_refMoved env ch hm,
   fun env ch cnt e hcb hmem => deployChanges_blobfail env ch cnt e hcb hmem,
   fun env pp hm => pushToGithub_refMoved env pp hm,
   fun env pp cnt e hcb hmem => pushToGithub_blobfail env pp cnt e hcb hmem⟩

/-- Witness for C3: a concrete run whose blob creation fails performs no
tree, commit or ref-write call and reports failure. -/
theorem deploy_atomicity_witness :
    (deployChanges failBlobD [⟨"a", some "x", some .create⟩]).1.success
      = false ∧
    (∀ b es, GitEv.createTree b es ∉
      (deployChanges failBlobD [⟨"a", some "x", some .create⟩]).2) ∧
    (∀ t ps, GitEv.createCommit t ps ∉
      (deployChanges failBlobD [⟨"a", some "x", some .create⟩]).2) ∧
    (∀ ev ∈ (deployChanges failBlobD [⟨"a", some "x", some .create⟩]).2,
      ¬ isRefWrite ev) :=
  deploy_atomicity.2.1 failBlobD [⟨"a", some "x", some .create⟩] "x"
    ⟨false, "boom"⟩ rfl (by decide)

/-! ## C2 — the sort invariant -/

theorem lcLe_total (a b : String) : lcLe a b = true ∨ lcLe b a = true := by
  unfold lcLe
  rcases lt_trichotomy a.toLower b.toLower with h | h | h
  · left; simp [h]
  · rcases le_total a b with h2 | h2
    · left; simp [h, h2]
    · right; simp [h.symm, h2]
  · right; simp [h]

theorem lcLe_trans (a b c : String) (h1 : lcLe a b = true)
    (h2 : lcLe b c = true) : lcLe a c = true := by
  unfold lcLe at h1 h2 ⊢
  simp only [Bool.or_eq_true, Bool.and_eq_true, decide_eq_true_eq,
    beq_iff_eq] at h1 h2 ⊢
  rcases h1 with h1 | ⟨h1e, h1le⟩
  · rcases h2 with h2 | ⟨h2e, _⟩
    · exact Or.inl (lt_trans h1 h2)
    · exact Or.inl (h2e ▸ h1)
  · rcases h2 with h2 | ⟨h2e, h2le⟩
    · exact Or.inl (h1e ▸ h2)
    · exact Or.inr ⟨h1e.trans h2e, le_trans h1le h2le⟩

theorem nodeLe_total (a b : FileNode) : nodeLe a b || nodeLe b a := by
  unfold nodeLe
  by_cases h : a.type = b.type
  · simp only [h, if_true, if_pos h.symm]
    rcases lcLe_total a.name b.name with h1 | h1 <;> simp [h1]
  · have h' : ¬ b.type = a.type := fun hh => h hh.symm
    simp only [h, h', if_false]
    cases hat : a.type <;> cases hbt : b.type <;> simp_all

theorem nodeLe_trans (a b c : FileNode) (h1 : nodeLe a b) (h2 : nodeLe b c) :
    nodeLe a c := by
  unfold nodeLe at h1 h2 ⊢
  by_cases hab : a.type = b.type
  · by_cases hbc : b.type = c.type
    · simp only [hab.trans hbc, if_true]
      simp only [hab, if_true] at h1
      simp only [hbc, if_true] at h2
      exact lcLe_trans _ _ _ h1 h2
    · have hac : ¬ a.type = c.type := fun hh => hbc (hab ▸ hh)
      simp only [hbc, if_false] at h2
      simp only [hac, if_false]
      rw [show b.type = a.type from hab.symm] at h2
      exact h2
  · simp only [hab, if_false] at h1
    by_cases hbc : b.type = c.type
    · have hac : ¬ a.type = c.type := fun hh => hab (hh.trans hbc.symm)
      simp only [hac, if_false]
      exact h1
    · cases hta : a.type <;> cases htb : b.type <;> cases htc : c.type <;>
        simp_all

/-- The key of a node: the only data the comparator and the claimed
invariant inspect. -/
def nodeKey (n : FileNode) : String × FType := (n.name, n.type)

theorem nodeLe_key (a b a' b' : FileNode) (ha : nodeKey a = nodeKey a')
    (hb : nodeKey b = nodeKey b') (h : nodeLe a b = true) :
    pairRespects a' b' = true := by
  unfold nodeKey at ha hb
  have ha1 : a.name = a'.name := congrArg Prod.fst ha
  have ha2 : a.type = a'.type := congrArg Prod.snd ha
  have hb1 : b.name = b'.name := congrArg Prod.fst hb
  have hb2 : b.type = b'.type := congrArg Prod.snd hb
  unfold nodeLe at h
  unfold pairRespects
  by_cases ht : a.type = b.type
  · simp only [ht, if_true] at h
    have ht' : a'.type = b'.type := ha2 ▸ hb2 ▸ ht
    simp only [ht', if_pos ht']
    unfold lcLe at h
    simp only [Bool.or_eq_true, Bool.and_eq_true, decide_eq_true_eq,
      beq_iff_eq] at h
    have hle : a.name.toLower ≤ b.name.toLower := by
      rcases h with h | ⟨heq, _⟩
      · exact le_of_lt h
      · exact le_of_eq heq
    rw [ha1, hb1] at hle
    simp only [hle, decide_eq_true_eq, Bool.and_true, decide_True]
    cases hx : a'.type <;> cases hy : b'.type <;> simp_all
  · simp only [ht, if_false] at h
    have hda : a.type = FType.dir := by
      cases hx : a.type <;> simp_all
    have ht' : ¬ a'.type = b'.type := fun hh => ht (ha2 ▸ hb2 ▸ hh)
    simp only [if_neg ht', Bool.and_true]
    rw [← ha2, hda]
    simp

theorem pairwise_respects_of_keys (l1 l2 : List FileNode)
    (hk : l1.map nodeKey = l2.map nodeKey)
    (hp : l2.Pairwise (fun a b => nodeLe a b = true)) :
    l1.Pairwise (fun a b => pairRespects a b = true) := by
  induction l1 generalizing l2 with
  | nil => exact List.Pairwise.nil
  | cons a tl ih =>
    cases l2 with
    | nil => simp at hk
    | cons a2 tl2 =>
      simp only [List.map_cons, List.cons.injEq] at hk
      obtain ⟨hk1, hk2⟩ := hk
      rcases List.pairwise_cons.mp hp with ⟨hhead, htail⟩
      refine List.pairwise_cons.mpr ⟨?_, ih tl2 hk2 htail⟩
      intro b hb
      have hbk : nodeKey b ∈ tl2.map nodeKey := by
        rw [← hk2]
        exact List.mem_map_of_mem nodeKey hb
      rcases List.mem_map.mp hbk with ⟨b2, hb2, hbe⟩
      exact nodeLe_key a2 b2 a b hk1.symm hbe (hhead b2 hb2)

theorem sortTree_keys (t : List FileNode) :
    (sortTree t).map nodeKey = (List.mergeSort t nodeLe).map nodeKey := by
  unfold sortTree
  rw [List.map_map]
  rw [List.map_congr_left (g := fun y => nodeKey y.1) ?_]
  · exact List.attach_map_val (List.mergeSort t nodeLe) nodeKey
  · intro y hy
    rcases y with ⟨⟨n, p, ty, c⟩, hmem⟩
    cases c <;> rfl

theorem sortTree_mem (t : List FileNode) :
    ∀ x ∈ sortTree t, ∃ y, y ∈ t ∧ x.name = y.name ∧ x.path = y.path ∧
      x.type = y.type ∧
      ((y.children = none ∧ x.children = none) ∨
        (∃ cs, y.children = some cs ∧ x.children = some (sortTree cs))) := by
  intro x hx
  unfold sortTree at hx
  rcases List.mem_map.mp hx with ⟨y, hy, rfl⟩
  rcases y with ⟨⟨n, p, ty, c⟩, hmem⟩
  have hmem' : FileNode.mk n p ty c ∈ t := List.mem_mergeSort.mp hmem
  cases c with
  | none => exact ⟨_, hmem', rfl, rfl, rfl, Or.inl ⟨rfl, rfl⟩⟩
  | some cs => exact ⟨_, hmem', rfl, rfl, rfl, Or.inr ⟨cs, rfl, rfl⟩⟩

theorem levelOrdered_of_pairwise (l : List FileNode)
    (h : l.Pairwise (fun a b => pairRespects a b = true)) :
    levelOrdered l = true := by
  induction l with
  | nil => rfl
  | cons a tl ih =>
    rcases List.pairwise_cons.mp h with ⟨hh, ht⟩
    unfold levelOrdered
    rw [List.all_eq_true.mpr hh, ih ht]
    rfl

theorem childrenOrdered_of_mem (l : List FileNode)
    (h : ∀ n ∈ l, ∀ cs, n.children = some cs → treeOrdered cs = true) :
    childrenOrdered l = true := by
  induction l with
  | nil => unfold childrenOrdered; rfl
  | cons a tl ih =>
    have htl := ih (fun n hn => h n (List.mem_cons_of_mem a hn))
    rcases a with ⟨n, p, ty, c⟩
    cases c with
    | none =>
      unfold childrenOrdered
      exact htl
    | some cs =>
      unfold childrenOrdered
      rw [h _ (List.mem_cons_self _ _) cs rfl, htl]
      rfl

/-- Every sibling group of a `sortTree` output is ordered as claim C2
demands, at every depth. -/
theorem treeOrdered_sortTree (t : List FileNode) :
    treeOrdered (sortTree t) = true := by
  have hp : (List.mergeSort t nodeLe).Pairwise
      (fun a b => nodeLe a b = true) :=
    List.sorted_mergeSort nodeLe_trans (fun a b => nodeLe_total a b) t
  have hlev := levelOrdered_of_pairwise _
    (pairwise_respects_of_keys _ _ (sortTree_keys t) hp)
  have hch : childrenOrdered (sortTree t) = true := by
    apply childrenOrdered_of_mem
    intro n hn cs hcs
    rcases sortTree_mem t n hn with ⟨y, hyt, -, -, -, hc⟩
    rcases hc with ⟨-, hnone⟩ | ⟨cs0, hy0, hsome⟩
    · rw [hnone] at hcs; cases hcs
    · rw [hsome] at hcs
      injection hcs with hcs
      rw [← hcs]
      exact treeOrdered_sortTree cs0
  unfold treeOrdered
  rw [hlev, hch]
  rfl
termination_by sizeOf t
decreasing_by
  have h1 := List.sizeOf_lt_of_mem hyt
  rcases y with ⟨n1, p1, ty1, c1⟩
  simp only [FileNode.children] at hy0
  subst hy0
  simp only [FileNode.mk.sizeOf_spec, Option.some.sizeOf_spec] at h1
  omega

/-- Claim C2, amended: every tree produced by `buildFileTree` satisfies the
sort invariant (directories before files, case-insensitively ascending
names within each kind, at every level); `getFileTree` does not sort (see
the counterexample). -/
theorem buildFileTree_sorted (paths : List String) :
    treeOrdered (buildFileTree paths) = true :=
  treeOrdered_sortTree (paths.foldl insertPath [])

set_option maxRecDepth 4000 in
unseal treeOrdered childrenOrdered in
/-- Counterexample to C2 as stated: the `getFileTree` implementation of
`Build` performs no sorting — it keeps the flat listing's order, so a
listing with a file before a directory yields a sibling group with a
`file` node before a `dir` node. -/
theorem getFileTree_not_sorted :
    treeOrdered (getFileTree [⟨"a.txt", .blob, some 3⟩, ⟨"b", .tree, none⟩])
      = false := rfl

/-! ## C9 and C1 — structural invariants of `buildFileTree`

The proofs work in segment space: `fileSegs σ t` lists the absolute paths
(as segment lists) of the file nodes of forest `t` sitting under prefix
`σ`, and `InvForest σ t` is the structural invariant the insertion loop
maintains on prefix-free inputs. -/

/-- Absolute segment-paths of the file nodes of a forest under prefix `σ`
(directories recurse, `file` leaves contribute `σ ++ [name]`). -/
def fileSegs (σ : List String) : List FileNode → List (List String)
  | [] => []
  | .mk n _ .file _ :: ns => (σ ++ [n]) :: fileSegs σ ns
  | .mk _ _ .dir none :: ns => fileSegs σ ns
  | .mk n _ .dir (some cs) :: ns => fileSegs (σ ++ [n]) cs ++ fileSegs σ ns

mutual

/-- Structural invariant of one node under prefix `σ`: its name is a
slash-free segment, its `path` is the join of `σ` and its name, a node
without a `children` array is a `file`, and a node with one is a `dir`
whose subtree contains at least one file and recursively satisfies the
invariant. -/
def InvNode (σ : List String) : FileNode → Prop
  | .mk n p t c =>
    '/' ∉ n.data ∧ p = joinSlash (σ ++ [n]) ∧
    (match c with
     | none => t = .file
     | some cs =>
       t = .dir ∧ fileSegs (σ ++ [n]) cs ≠ [] ∧ InvForest (σ ++ [n]) cs)

/-- Structural invariant of a forest: sibling names are pairwise distinct
and every node satisfies `InvNode`. -/
def InvForest (σ : List String) : List FileNode → Prop
  | [] => True
  | x :: xs => InvNode σ x ∧ (∀ y ∈ xs, y.name ≠ x.name) ∧ InvForest σ xs

end


/-- Unfolding lemma for `InvNode` on a literal node. -/
theorem InvNode_mk (σ : List String) (n p : String) (t : FType)
    (c : Option (List FileNode)) :
    InvNode σ (.mk n p t c) ↔
      '/' ∉ n.data ∧ p = joinSlash (σ ++ [n]) ∧
      (match c with
       | none => t = .file
       | some cs =>
         t = .dir ∧ fileSegs (σ ++ [n]) cs ≠ [] ∧ InvForest (σ ++ [n]) cs) := by
  rw [InvNode.eq_def]

theorem fileSegs_append (σ : List String) :
    ∀ l1 l2 : List FileNode,
      fileSegs σ (l1 ++ l2) = fileSegs σ l1 ++ fileSegs σ l2 := by
  intro l1
  induction l1 with
  | nil => intro l2; simp only [fileSegs, List.nil_append]
  | cons x xs ih =>
    intro l2
    rcases x with ⟨n, p, t, c⟩
    cases t with
    | file =>
      rw [List.cons_append]
      simp only [fileSegs]
      rw [ih l2]
      rfl
    | dir =>
      cases c with
      | none =>
        rw [List.cons_append]
        simp only [fileSegs]
        exact ih l2
      | some cs =>
        rw [List.cons_append]
        simp only [fileSegs]
        rw [ih l2, List.append_assoc]

theorem fileSegs_shape :
    ∀ (σ : List String) (t : List FileNode) (q : List String),
      q ∈ fileSegs σ t → ∃ x ∈ t, ∃ u, q = σ ++ x.name :: u
  | σ, [], q, h => by simp [fileSegs] at h
  | σ, .mk n p .file c :: ns, q, h => by
    simp only [fileSegs] at h
    rcases List.mem_cons.mp h with h1 | h1
    · exact ⟨_, List.mem_cons_self _ _, [], by rw [h1]; rfl⟩
    · rcases fileSegs_shape σ ns q h1 with ⟨x, hx, u, hu⟩
      exact ⟨x, List.mem_cons_of_mem _ hx, u, hu⟩
  | σ, .mk n p .dir none :: ns, q, h => by
    simp only [fileSegs] at h
    rcases fileSegs_shape σ ns q h with ⟨x, hx, u, hu⟩
    exact ⟨x, List.mem_cons_of_mem _ hx, u, hu⟩
  | σ, .mk n p .dir (some cs) :: ns, q, h => by
    simp only [fileSegs] at h
    rcases List.mem_append.mp h with h1 | h1
    · rcases fileSegs_shape (σ ++ [n]) cs q h1 with ⟨x, hx, u, hu⟩
      refine ⟨_, List.mem_cons_self _ _, x.name :: u, ?_⟩
      rw [hu, List.append_assoc]
      rfl
    · rcases fileSegs_shape σ ns q h1 with ⟨x, hx, u, hu⟩
      exact ⟨x, List.mem_cons_of_mem _ hx, u, hu⟩

/-- A successful `find?` splits the list at the first hit. -/
theorem find?_decomp (p : FileNode → Bool) :
    ∀ (t : List FileNode) (node : FileNode), t.find? p = some node →
      ∃ l1 l2, t = l1 ++ node :: l2 ∧ (∀ y ∈ l1, p y = false) ∧
        p node = true := by
  intro t
  induction t with
  | nil => intro node h; simp at h
  | cons x xs ih =>
    intro node h
    cases hx : p x with
    | true =>
      rw [List.find?_cons_of_pos _ hx] at h
      injection h with h
      exact ⟨[], xs, by rw [h]; rfl, by simp, by rw [← h]; exact hx⟩
    | false =>
      rw [List.find?_cons_of_neg _ (by simp [hx])] at h
      rcases ih node h with ⟨l1, l2, he, hl1, hn⟩
      exact ⟨x :: l1, l2, by rw [he]; rfl,
        fun y hy => by
          rcases List.mem_cons.mp hy with h1 | h1
          · rw [h1]; exact hx
          · exact hl1 y h1, hn⟩

theorem updateFirst_decomp (p : FileNode → Bool) (f : FileNode → FileNode) :
    ∀ (l1 l2 : List FileNode) (node : FileNode),
      (∀ y ∈ l1, p y = false) → p node = true →
      updateFirst p f (l1 ++ node :: l2) = l1 ++ f node :: l2 := by
  intro l1
  induction l1 with
  | nil =>
    intro l2 node _ hn
    rw [List.nil_append]
    unfold updateFirst
    rw [if_pos hn]
    rfl
  | cons x xs ih =>
    intro l2 node hl1 hn
    rw [List.cons_append]
    unfold updateFirst
    rw [if_neg (by rw [hl1 x (List.mem_cons_self _ _)]; simp)]
    rw [ih l2 node (fun y hy => hl1 y (List.mem_cons_of_mem _ hy)) hn]
    rfl

theorem InvForest_append (σ : List String) :
    ∀ l1 l2 : List FileNode,
      InvForest σ (l1 ++ l2) ↔
        InvForest σ l1 ∧ InvForest σ l2 ∧
          ∀ x ∈ l1, ∀ y ∈ l2, y.name ≠ x.name := by
  intro l1
  induction l1 with
  | nil =>
    intro l2
    simp [InvForest]
  | cons x xs ih =>
    intro l2
    rw [List.cons_append]
    simp only [InvForest]
    rw [ih l2]
    constructor
    · rintro ⟨hn, hname, h1, h2, h3⟩
      refine ⟨⟨hn, fun y hy => hname y (List.mem_append_left _ hy), h1⟩,
        h2, ?_⟩
      intro a ha y hy
      rcases List.mem_cons.mp ha with h | h
      · rw [h]; exact hname y (List.mem_append_right _ hy)
      · exact h3 a h y hy
    · rintro ⟨⟨hn, hname, h1⟩, h2, h3⟩
      refine ⟨hn, ?_, h1, h2, fun a ha y hy => h3 a (List.mem_cons_of_mem _ ha) y hy⟩
      intro y hy
      rcases List.mem_append.mp hy with h | h
      · exact hname y h
      · exact h3 x (List.mem_cons_self _ _) y h
theorem splitOnP_pieces {α : Type} (p : α → Bool) :
    ∀ (l : List α) (piece : List α), piece ∈ l.splitOnP p →
      ∀ a ∈ piece, ¬ p a = true := by
  intro l
  induction l with
  | nil =>
    intro piece hp a ha
    rw [List.splitOnP_nil] at hp
    simp at hp
    rw [hp] at ha
    simp at ha
  | cons x xs ih =>
    intro piece hp a ha
    rw [List.splitOnP_cons] at hp
    cases hx : p x with
    | true =>
      rw [hx, if_pos rfl] at hp
      rcases List.mem_cons.mp hp with h1 | h1
      · rw [h1] at ha; simp at ha
      · exact ih piece h1 a ha
    | false =>
      rw [hx] at hp
      simp only [Bool.false_eq_true, if_false] at hp
      cases hsp : xs.splitOnP p with
      | nil => exact absurd hsp (List.splitOnP_ne_nil p xs)
      | cons h t =>
        rw [hsp] at hp
        simp only [List.modifyHead] at hp
        rcases List.mem_cons.mp hp with h1 | h1
        · rw [h1] at ha
          rcases List.mem_cons.mp ha with h2 | h2
          · rw [h2, hx]; simp
          · exact ih h (by rw [hsp]; exact List.mem_cons_self _ _) a h2
        · exact ih piece (by rw [hsp]; exact List.mem_cons_of_mem _ h1) a ha

theorem splitSlash_slashFree (s : String) :
    ∀ seg ∈ splitSlash s, '/' ∉ seg.data := by
  intro seg hseg
  unfold splitSlash at hseg
  rcases List.mem_map.mp hseg with ⟨piece, hpiece, rfl⟩
  intro hc
  exact splitOnP_pieces _ s.data piece hpiece '/' hc (by simp)

theorem splitSlash_ne_nil (s : String) : splitSlash s ≠ [] := by
  unfold splitSlash
  intro h
  rcases List.map_eq_nil_iff.mp h with h1
  exact List.splitOnP_ne_nil _ s.data h1

theorem joinSlash_append_of_ne_nil (A B : List String) (hA : A ≠ [])
    (hB : B ≠ []) : joinSlash (A ++ B) = joinSlash A ++ "/" ++ joinSlash B := by
  induction A with
  | nil => exact absurd rfl hA
  | cons a t ih =>
    cases t with
    | nil =>
      rw [List.singleton_append, joinSlash_cons_of_ne_nil a B hB,
        joinSlash_singleton]
    | cons b t' =>
      rw [List.cons_append, joinSlash_cons_of_ne_nil a ((b :: t') ++ B)
        (by simp), joinSlash_cons_of_ne_nil a (b :: t') (by simp),
        ih (by simp)]
      simp [String.append_assoc]

/-- A proper segment-wise prefix gives a proper string prefix of the
joined paths. -/
theorem segs_proper_prefix_string (A B : List String) (hA : A ≠ [])
    (hpre : A <+: B) (hne : A ≠ B) :
    (joinSlash A).data <+: (joinSlash B).data ∧ joinSlash A ≠ joinSlash B := by
  rcases hpre with ⟨C, rfl⟩
  have hC : C ≠ [] := by
    intro h
    rw [h, List.append_nil] at hne
    exact hne rfl
  rw [joinSlash_append_of_ne_nil A C hA hC]
  constructor
  · exact ⟨("/" ++ joinSlash C).data, by simp [String.data_append]⟩
  · intro h
    have hlen := congrArg (fun s : String => s.data.length) h
    simp only [String.data_append, List.length_append] at hlen
    rw [show ("/" : String).data.length = 1 from rfl] at hlen
    omega
theorem fileSegs_strict_extends (σ' : List String) (cs : List FileNode) :
    ∀ f ∈ fileSegs σ' cs, σ' <+: f ∧ f ≠ σ' := by
  intro f hf
  rcases fileSegs_shape σ' cs f hf with ⟨x, hx, u, rfl⟩
  refine ⟨⟨x.name :: u, rfl⟩, ?_⟩
  intro h
  have h2 : σ' ++ x.name :: u = σ' ++ [] := by rw [List.append_nil]; exact h
  exact List.cons_ne_nil _ _ (List.append_cancel_left h2)

theorem insertGo_master (rest : List String) :
    ∀ (σ : List String) (t : List FileNode),
      rest ≠ [] →
      (∀ s ∈ rest, '/' ∉ s.data) →
      InvForest σ t →
      (∀ f ∈ fileSegs σ t, f ≠ σ ++ rest →
         ¬ f <+: σ ++ rest ∧ ¬ (σ ++ rest) <+: f) →
      InvForest σ (insertGo σ rest t) ∧
      (∀ q, q ∈ fileSegs σ (insertGo σ rest t) ↔
         q ∈ fileSegs σ t ∨ q = σ ++ rest) ∧
      ((fileSegs σ t).Nodup → (fileSegs σ (insertGo σ rest t)).Nodup) := by
  induction rest with
  | nil => intro σ t hne _ _ _; exact absurd rfl hne
  | cons part rest2 ih =>
    intro σ t _ hsf hInv hA
    cases hfind : t.find? (fun n => n.name == part) with
    | none =>
      have hnof : ∀ x ∈ t, x.name ≠ part := by
        intro x hx hxe
        have h := List.find?_eq_none.mp hfind x hx
        simp [hxe] at h
      have hnomem : ∀ u, σ ++ part :: u ∉ fileSegs σ t := by
        intro u hmem
        rcases fileSegs_shape σ t _ hmem with ⟨x, hx, u', hu⟩
        have hc := List.append_cancel_left hu
        injection hc with hc1 _
        exact hnof x hx hc1.symm
      cases rest2 with
      | nil =>
        have hstep : insertGo σ [part] t =
            t ++ [.mk part (joinSlash (σ ++ [part])) .file none] := by
          simp only [insertGo, hfind, List.isEmpty_nil, if_true]
        rw [hstep]
        have hseg : fileSegs σ (t ++ [.mk part (joinSlash (σ ++ [part]))
            .file none]) = fileSegs σ t ++ [σ ++ [part]] := by
          rw [fileSegs_append]
          simp only [fileSegs]
        refine ⟨?_, ?_, ?_⟩
        · rw [InvForest_append]
          refine ⟨hInv, ?_, ?_⟩
          · simp [InvForest, InvNode_mk, hsf part (List.mem_cons_self _ _)]
          · intro x hx y hy
            simp only [List.mem_singleton] at hy
            rw [hy]
            exact fun hc => hnof x hx hc.symm
        · intro q
          rw [hseg]
          simp [List.mem_append]
        · intro hnd
          rw [hseg]
          rw [List.nodup_append]
          exact ⟨hnd, List.nodup_singleton _, by
            intro a ha hb
            simp only [List.mem_singleton] at hb
            rw [hb] at ha
            exact hnomem [] ha⟩
      | cons r2 rest3 =>
        have hstep : insertGo σ (part :: r2 :: rest3) t =
            t ++ [.mk part (joinSlash (σ ++ [part])) .dir
              (some (insertGo (σ ++ [part]) (r2 :: rest3) []))] := by
          simp only [insertGo, hfind, List.isEmpty_cons,
            Bool.false_eq_true, if_false]
        rw [hstep]
        have hsub := ih (σ ++ [part]) []
          (List.cons_ne_nil _ _) (fun s hs => hsf s (List.mem_cons_of_mem _ hs))
          trivial (by intro f hf; simp [fileSegs] at hf)
        rw [show (σ ++ [part]) ++ (r2 :: rest3) = σ ++ part :: r2 :: rest3
          from by simp] at hsub
        obtain ⟨hsubInv, hsubIff, hsubNd⟩ := hsub
        have hsegnew : ∀ q, q ∈ fileSegs (σ ++ [part])
            (insertGo (σ ++ [part]) (r2 :: rest3) []) ↔
            q = σ ++ part :: r2 :: rest3 := by
          intro q
          rw [hsubIff q]
          simp [fileSegs]
        have hcne : fileSegs (σ ++ [part])
            (insertGo (σ ++ [part]) (r2 :: rest3) []) ≠ [] := by
          intro hnil
          have := (hsegnew (σ ++ part :: r2 :: rest3)).mpr rfl
          rw [hnil] at this
          simp at this
        have hseg : fileSegs σ (t ++ [.mk part (joinSlash (σ ++ [part]))
            .dir (some (insertGo (σ ++ [part]) (r2 :: rest3) []))]) =
            fileSegs σ t ++ fileSegs (σ ++ [part])
              (insertGo (σ ++ [part]) (r2 :: rest3) []) := by
          rw [fileSegs_append]
          simp only [fileSegs, List.append_nil]
        refine ⟨?_, ?_, ?_⟩
        · rw [InvForest_append]
          refine ⟨hInv, ?_, ?_⟩
          · simp [InvForest, InvNode_mk, hsf part (List.mem_cons_self _ _),
              hcne, hsubInv]
          · intro x hx y hy
            simp only [List.mem_singleton] at hy
            rw [hy]
            exact fun hc => hnof x hx hc.symm
        · intro q
          rw [hseg]
          rw [List.mem_append, hsegnew q]
        · intro hnd
          rw [hseg, List.nodup_append]
          refine ⟨hnd, hsubNd (by simp [fileSegs]), ?_⟩
          intro a ha hb
          rw [hsegnew a] at hb
          rw [hb] at ha
          exact hnomem (r2 :: rest3) ha
    | some node =>
      rcases find?_decomp _ t node hfind with ⟨l1, l2, rfl, hl1, hpn⟩
      have hname : node.name = part := by
        simpa using hpn
      have hl1n : ∀ y ∈ l1, y.name ≠ part := by
        intro y hy hc
        have := hl1 y hy
        simp [hc] at this
      rw [InvForest_append] at hInv
      obtain ⟨hInv1, hInv2', hcross⟩ := hInv
      have hInv2 := hInv2'
      simp only [InvForest] at hInv2
      obtain ⟨hNode, hl2n, hInvl2⟩ := hInv2
      rcases node with ⟨nm, np, nt, nc⟩
      simp only [FileNode.name] at hname
      subst hname
      rw [InvNode_mk] at hNode
      obtain ⟨hnsf, hnpath, hNodeC⟩ := hNode
      cases nc with
      | none =>
        have hnt : nt = FType.file := hNodeC
        subst hnt
        have hmemfile : σ ++ [nm] ∈
            fileSegs σ (l1 ++ FileNode.mk nm np FType.file none :: l2) := by
          rw [fileSegs_append]
          simp only [fileSegs]
          exact List.mem_append_right _ (List.mem_cons_self _ _)
        cases rest2 with
        | nil =>
          have hstep : insertGo σ [nm]
              (l1 ++ FileNode.mk nm np FType.file none :: l2) =
              l1 ++ FileNode.mk nm np FType.file none :: l2 := by
            simp only [insertGo, hfind, List.isEmpty_nil, if_true]
          rw [hstep]
          refine ⟨?_, ?_, fun h => h⟩
          · rw [InvForest_append]
            exact ⟨hInv1, hInv2', hcross⟩
          · intro q
            constructor
            · intro h; exact Or.inl h
            · intro h
              rcases h with h | h
              · exact h
              · rw [h]; exact hmemfile
        | cons r2 rest3 =>
          exfalso
          have hApp := hA (σ ++ [nm]) hmemfile (by
            intro h
            have := List.append_cancel_left h
            simp at this)
          exact hApp.1 ⟨r2 :: rest3, by simp⟩
      | some cs =>
        obtain ⟨hnt, hcsne, hInvcs⟩ := hNodeC
        subst hnt
        have hsegdec : fileSegs σ
            (l1 ++ FileNode.mk nm np FType.dir (some cs) :: l2) =
            fileSegs σ l1 ++ (fileSegs (σ ++ [nm]) cs ++ fileSegs σ l2) := by
          rw [fileSegs_append]
          simp only [fileSegs]
        cases rest2 with
        | nil =>
          exfalso
          rcases List.exists_mem_of_ne_nil _ hcsne with ⟨f, hf⟩
          have hfmem : f ∈ fileSegs σ
              (l1 ++ FileNode.mk nm np FType.dir (some cs) :: l2) := by
            rw [hsegdec]
            exact List.mem_append_right _ (List.mem_append_left _ hf)
          obtain ⟨hfpre, hfne⟩ := fileSegs_strict_extends (σ ++ [nm]) cs f hf
          have hApp := hA f hfmem (fun h => hfne h)
          exact hApp.2 hfpre
        | cons r2 rest3 =>
          have hstep : insertGo σ (nm :: r2 :: rest3)
              (l1 ++ FileNode.mk nm np FType.dir (some cs) :: l2) =
              l1 ++ FileNode.mk nm np FType.dir
                (some (insertGo (σ ++ [nm]) (r2 :: rest3) cs)) :: l2 := by
            simp only [insertGo, hfind, List.isEmpty_cons,
              Bool.false_eq_true, if_false, FileNode.children]
            rw [updateFirst_decomp _ _ l1 l2 _ hl1 hpn]
          rw [hstep]
          have hApp' : ∀ f ∈ fileSegs (σ ++ [nm]) cs,
              f ≠ (σ ++ [nm]) ++ (r2 :: rest3) →
              ¬ f <+: (σ ++ [nm]) ++ (r2 :: rest3) ∧
              ¬ ((σ ++ [nm]) ++ (r2 :: rest3)) <+: f := by
            intro f hf hne2
            rw [show (σ ++ [nm]) ++ (r2 :: rest3) =
              σ ++ nm :: r2 :: rest3 from by simp] at hne2 ⊢
            refine hA f ?_ hne2
            rw [hsegdec]
            exact List.mem_append_right _ (List.mem_append_left _ hf)
          have hsub := ih (σ ++ [nm]) cs (List.cons_ne_nil _ _)
            (fun s hs => hsf s (List.mem_cons_of_mem _ hs)) hInvcs hApp'
          rw [show (σ ++ [nm]) ++ (r2 :: rest3) = σ ++ nm :: r2 :: rest3
            from by simp] at hsub
          obtain ⟨hsubInv, hsubIff, hsubNd⟩ := hsub
          have hsegdec' : fileSegs σ
              (l1 ++ FileNode.mk nm np FType.dir
                (some (insertGo (σ ++ [nm]) (r2 :: rest3) cs)) :: l2) =
              fileSegs σ l1 ++
                (fileSegs (σ ++ [nm])
                  (insertGo (σ ++ [nm]) (r2 :: rest3) cs) ++
                 fileSegs σ l2) := by
            rw [fileSegs_append]
            simp only [fileSegs]
          have hnotin : ∀ q, q ∈ fileSegs σ l1 ++ fileSegs σ l2 →
              q ≠ σ ++ nm :: r2 :: rest3 := by
            intro q hq hqe
            rcases List.mem_append.mp hq with h | h
            · rcases fileSegs_shape σ l1 q h with ⟨x, hx, u, hu⟩
              rw [hqe] at hu
              have hc := List.append_cancel_left hu
              injection hc with hc1 _
              exact hl1n x hx hc1.symm
            · rcases fileSegs_shape σ l2 q h with ⟨x, hx, u, hu⟩
              rw [hqe] at hu
              have hc := List.append_cancel_left hu
              injection hc with hc1 _
              exact hl2n x hx (by rw [← hc1]; rfl)
          have hcne' : fileSegs (σ ++ [nm])
              (insertGo (σ ++ [nm]) (r2 :: rest3) cs) ≠ [] := by
            intro hnil
            rcases List.exists_mem_of_ne_nil _ hcsne with ⟨f, hf⟩
            have := (hsubIff f).mpr (Or.inl hf)
            rw [hnil] at this
            simp at this
          refine ⟨?_, ?_, ?_⟩
          · rw [InvForest_append]
            refine ⟨hInv1, ?_, ?_⟩
            · simp only [InvForest, InvNode_mk]
              refine ⟨⟨hnsf, hnpath, trivial, hcne', hsubInv⟩, ?_, hInvl2⟩
              intro y hy
              exact hl2n y hy
            · intro x hx y hy
              rcases List.mem_cons.mp hy with h | h
              · rw [h]
                show nm ≠ x.name
                exact hcross x hx (FileNode.mk nm np FType.dir (some cs))
                  (List.mem_cons_self _ _)
              · exact hcross x hx y (List.mem_cons_of_mem _ h)
          · intro q
            rw [hsegdec', hsegdec]
            simp only [List.mem_append, hsubIff q]
            constructor
            · rintro (h | (h | h) | h)
              · exact Or.inl (Or.inl h)
              · exact Or.inl (Or.inr (Or.inl h))
              · exact Or.inr h
              · exact Or.inl (Or.inr (Or.inr h))
            · rintro ((h | h | h) | h)
              · exact Or.inl h
              · exact Or.inr (Or.inl (Or.inl h))
              · exact Or.inr (Or.inr h)
              · exact Or.inr (Or.inl (Or.inr h))
          · intro hnd
            rw [hsegdec']
            rw [hsegdec] at hnd
            rw [List.nodup_append] at hnd ⊢
            obtain ⟨hnd1, hnd2, hdisj⟩ := hnd
            rw [List.nodup_append] at hnd2 ⊢
            obtain ⟨hndcs, hndl2, hdisj2⟩ := hnd2
            refine ⟨hnd1, ⟨hsubNd hndcs, hndl2, ?_⟩, ?_⟩
            · intro a ha
              rcases (hsubIff a).mp ha with h | h
              · exact fun hb => hdisj2 h hb
              · intro hb
                exact hnotin a (List.mem_append_right _ hb) h
            · intro a ha hb
              rcases List.mem_append.mp hb with h | h
              · rcases (hsubIff a).mp h with h1 | h1
                · exact hdisj ha (List.mem_append_left _ h1)
                · exact hnotin a (List.mem_append_left _ ha) h1
              · exact hdisj ha (List.mem_append_right _ h)
/-! ### `sortTree` preserves the invariant and the file-path multiset -/

/-- The action of `sortTree` on one node: children (if any) are sorted
recursively, everything else is kept. -/
def sortOne : FileNode → FileNode
  | .mk n p t none => .mk n p t none
  | .mk n p t (some cs) => .mk n p t (some (sortTree cs))

theorem sortTree_eq_map (t : List FileNode) :
    sortTree t = (List.mergeSort t nodeLe).map sortOne := by
  conv_lhs => rw [sortTree]
  rw [List.map_congr_left (g := fun y => sortOne y.1) ?_]
  · exact List.attach_map_val (List.mergeSort t nodeLe) sortOne
  · intro y hy
    rcases y with ⟨⟨n, p, ty, c⟩, hmem⟩
    cases c <;> rfl

/-- The per-node contribution to `fileSegs`. -/
def contrib (σ : List String) : FileNode → List (List String)
  | .mk n _ .file _ => [σ ++ [n]]
  | .mk _ _ .dir none => []
  | .mk n _ .dir (some cs) => fileSegs (σ ++ [n]) cs

theorem fileSegs_eq_flatten (σ : List String) :
    ∀ t : List FileNode, fileSegs σ t = (t.map (contrib σ)).flatten := by
  intro t
  induction t with
  | nil => simp only [fileSegs, List.map_nil, List.flatten_nil]
  | cons x xs ih =>
    rcases x with ⟨n, p, ty, c⟩
    cases ty with
    | file =>
      simp only [fileSegs, List.map_cons, List.flatten_cons, contrib]
      rw [ih]
      rfl
    | dir =>
      cases c with
      | none =>
        simp only [fileSegs, List.map_cons, List.flatten_cons, contrib]
        rw [ih]
        rfl
      | some cs =>
        simp only [fileSegs, List.map_cons, List.flatten_cons, contrib]
        rw [ih]

theorem perm_flatten {α : Type} :
    ∀ {l1 l2 : List (List α)}, l1.Perm l2 → l1.flatten.Perm l2.flatten := by
  intro l1 l2 h
  induction h with
  | nil => exact .rfl
  | cons x _ ih => simpa only [List.flatten_cons] using ih.append_left x
  | swap x y l =>
    simp only [List.flatten_cons]
    rw [← List.append_assoc, ← List.append_assoc]
    exact List.perm_append_comm.append_right _
  | trans _ _ ih1 ih2 => exact ih1.trans ih2

theorem forall2_map_perm {α : Type} {β : Type} (R : β → β → Prop)
    (f g : α → β) :
    ∀ l : List α, (∀ x ∈ l, R (f x) (g x)) →
      List.Forall₂ R (l.map f) (l.map g) := by
  intro l
  induction l with
  | nil => intro _; exact .nil
  | cons x xs ih =>
    intro h
    exact .cons (h x (List.mem_cons_self _ _))
      (ih fun y hy => h y (List.mem_cons_of_mem _ hy))

theorem fileSegs_sortTree_perm (t : List FileNode) :
    ∀ σ : List String, (fileSegs σ (sortTree t)).Perm (fileSegs σ t) := by
  intro σ
  rw [sortTree_eq_map, fileSegs_eq_flatten, fileSegs_eq_flatten, List.map_map]
  have h1 : ((List.mergeSort t nodeLe).map (contrib σ ∘ sortOne)).Perm
      (t.map (contrib σ ∘ sortOne)) :=
    (List.mergeSort_perm t nodeLe).map _
  refine (perm_flatten h1).trans (List.Perm.flatten_congr ?_)
  refine forall2_map_perm _ _ _ t ?_
  intro x hx
  rcases x with ⟨n, p, ty, c⟩
  cases ty with
  | file => cases c <;> exact .rfl
  | dir =>
    cases c with
    | none => exact .rfl
    | some cs =>
      have hrec := fileSegs_sortTree_perm cs (σ ++ [n])
      simpa only [Function.comp_apply, sortOne, contrib] using hrec
termination_by sizeOf t
decreasing_by
  have h1 : sizeOf (FileNode.mk n p FType.dir (some cs)) < sizeOf t :=
    List.sizeOf_lt_of_mem hx
  simp only [FileNode.mk.sizeOf_spec, Option.some.sizeOf_spec] at h1
  omega

/-- Unfolding lemma for `InvForest` on a cons cell. -/
theorem InvForest_cons (σ : List String) (x : FileNode) (xs : List FileNode) :
    InvForest σ (x :: xs) ↔
      InvNode σ x ∧ (∀ y ∈ xs, y.name ≠ x.name) ∧ InvForest σ xs := by
  simp only [InvForest]

theorem InvForest_iff (σ : List String) :
    ∀ t : List FileNode, InvForest σ t ↔
      (∀ x ∈ t, InvNode σ x) ∧ t.Pairwise (fun a b => a.name ≠ b.name) := by
  intro t
  induction t with
  | nil => simp [InvForest]
  | cons x xs ih =>
    rw [InvForest_cons, ih, List.pairwise_cons]
    constructor
    · rintro ⟨h1, h2, h3, h4⟩
      refine ⟨?_, fun y hy => (h2 y hy).symm, h4⟩
      intro y hy
      rcases List.mem_cons.mp hy with rfl | hy2
      · exact h1
      · exact h3 y hy2
    · rintro ⟨h1, h2, h3⟩
      exact ⟨h1 x (List.mem_cons_self _ _), fun y hy => (h2 y hy).symm,
        fun y hy => h1 y (List.mem_cons_of_mem _ hy), h3⟩

theorem sortOne_name : ∀ x : FileNode, (sortOne x).name = x.name := by
  intro x
  rcases x with ⟨n, p, ty, c⟩
  cases c <;> rfl

theorem InvForest_sortTree (t : List FileNode) :
    ∀ σ : List String, InvForest σ t → InvForest σ (sortTree t) := by
  intro σ h
  rw [InvForest_iff] at h ⊢
  obtain ⟨hAll, hPair⟩ := h
  rw [sortTree_eq_map]
  constructor
  · intro x hx
    rcases List.mem_map.mp hx with ⟨y, hy, rfl⟩
    have hyt : y ∈ t := List.mem_mergeSort.mp hy
    have hyN := hAll y hyt
    rcases y with ⟨n, p, ty, c⟩
    cases c with
    | none => exact hyN
    | some cs =>
      rw [InvNode_mk] at hyN
      obtain ⟨hsf, hp, hty, hne, hcs⟩ := hyN
      show InvNode σ (.mk n p ty (some (sortTree cs)))
      rw [InvNode_mk]
      refine ⟨hsf, hp, hty, ?_, InvForest_sortTree cs (σ ++ [n]) hcs⟩
      intro hnil
      exact hne (List.Perm.eq_nil
        ((fileSegs_sortTree_perm cs (σ ++ [n])).symm.trans (hnil ▸ .rfl)))
  · have hP2 : (List.mergeSort t nodeLe).Pairwise
        (fun a b => a.name ≠ b.name) := by
      refine (List.Perm.pairwise_iff ?_ (List.mergeSort_perm t nodeLe)).mpr
        hPair
      intro a b hab
      exact hab.symm
    rw [List.pairwise_map]
    refine hP2.imp ?_
    intro a b hab
    rw [sortOne_name, sortOne_name]
    exact hab
termination_by sizeOf t
decreasing_by
  have h1 : sizeOf (FileNode.mk n p ty (some cs)) < sizeOf t :=
    List.sizeOf_lt_of_mem hyt
  simp only [FileNode.mk.sizeOf_spec, Option.some.sizeOf_spec] at h1
  omega
/-! ### Folding all paths, and the flatten bridge -/

theorem fold_master :
    ∀ (P : List String) (acc : List FileNode),
      InvForest [] acc →
      (∀ f ∈ fileSegs [] acc, ∀ p ∈ P, f ≠ splitSlash p →
         ¬ f <+: splitSlash p ∧ ¬ splitSlash p <+: f) →
      P.Pairwise (fun p q => splitSlash p ≠ splitSlash q →
         ¬ splitSlash p <+: splitSlash q ∧ ¬ splitSlash q <+: splitSlash p) →
      InvForest [] (P.foldl insertPath acc) ∧
      (∀ q, q ∈ fileSegs [] (P.foldl insertPath acc) ↔
         q ∈ fileSegs [] acc ∨ ∃ p ∈ P, q = splitSlash p) ∧
      ((fileSegs [] acc).Nodup → (fileSegs [] (P.foldl insertPath acc)).Nodup) := by
  intro P
  induction P with
  | nil =>
    intro acc hI _ _
    refine ⟨hI, ?_, fun h => h⟩
    intro q
    simp
  | cons p P' ih =>
    intro acc hI hAP hPP
    rw [List.foldl_cons]
    have hmaster := insertGo_master (splitSlash p) [] acc (splitSlash_ne_nil p)
      (splitSlash_slashFree p) hI (by
        intro f hf hne
        simp only [List.nil_append] at hne ⊢
        exact hAP f hf p (List.mem_cons_self _ _) hne)
    simp only [List.nil_append] at hmaster
    obtain ⟨hI1, hIff1, hNd1⟩ := hmaster
    rw [show insertPath acc p = insertGo [] (splitSlash p) acc from rfl]
    rcases List.pairwise_cons.mp hPP with ⟨hhead, htail⟩
    have hrec := ih (insertGo [] (splitSlash p) acc) hI1 (by
        intro f hf q hq hne
        rcases (hIff1 f).mp hf with hold | hnew
        · exact hAP f hold q (List.mem_cons_of_mem _ hq) hne
        · rw [hnew]
          exact hhead q hq (hnew ▸ hne)) htail
    obtain ⟨hI2, hIff2, hNd2⟩ := hrec
    refine ⟨hI2, ?_, fun hnd => hNd2 (hNd1 hnd)⟩
    intro q
    rw [hIff2 q, hIff1 q]
    constructor
    · rintro ((h | h) | ⟨r, hr, rfl⟩)
      · exact Or.inl h
      · exact Or.inr ⟨p, List.mem_cons_self _ _, h⟩
      · exact Or.inr ⟨r, List.mem_cons_of_mem _ hr, rfl⟩
    · rintro (h | ⟨r, hr, rfl⟩)
      · exact Or.inl (Or.inl h)
      · rcases List.mem_cons.mp hr with rfl | hr2
        · exact Or.inl (Or.inr rfl)
        · exact Or.inr ⟨r, hr2, rfl⟩

theorem flattenForest_eq :
    ∀ (σ : List String) (t : List FileNode), InvForest σ t →
      flattenForest t = (fileSegs σ t).map joinSlash
  | σ, [], _ => by simp only [flattenForest, fileSegs, List.map_nil]
  | σ, .mk n p .file c :: ns, h => by
    rw [InvForest_cons] at h
    obtain ⟨hN, -, hns⟩ := h
    rw [InvNode_mk] at hN
    obtain ⟨-, hp, -⟩ := hN
    simp only [flattenForest, fileSegs, List.map_cons]
    rw [flattenForest_eq σ ns hns, hp]
  | σ, .mk n p .dir none :: ns, h => by
    rw [InvForest_cons] at h
    obtain ⟨-, -, hns⟩ := h
    simp only [flattenForest, fileSegs]
    exact flattenForest_eq σ ns hns
  | σ, .mk n p .dir (some cs) :: ns, h => by
    rw [InvForest_cons] at h
    obtain ⟨hN, -, hns⟩ := h
    rw [InvNode_mk] at hN
    obtain ⟨-, hp, hc⟩ := hN
    obtain ⟨-, -, hcs⟩ := hc
    simp only [flattenForest, fileSegs, List.map_append]
    rw [flattenForest_eq (σ ++ [n]) cs hcs, flattenForest_eq σ ns hns]

/-! ### The per-node well-formedness stated by the spec for C9 -/

/-- For every node of the forest: its `name` is the final slash-separated
segment of its `path`, and every child node's `path` equals the parent's
`path` followed by `"/"` followed by the child's `name`. -/
def forestWF : List FileNode → Prop
  | [] => True
  | .mk n p _ c :: ns =>
      ((splitSlash p).getLast? = some n ∧
       (match c with
        | none => True
        | some cs => (∀ x ∈ cs, x.path = p ++ "/" ++ x.name) ∧ forestWF cs)) ∧
      forestWF ns

theorem InvForest_forestWF :
    ∀ (σ : List String) (t : List FileNode), (∀ s ∈ σ, '/' ∉ s.data) →
      InvForest σ t → forestWF t
  | σ, [], _, _ => by
    simp only [forestWF]
  | σ, .mk n p ty c :: ns, hσ, h => by
    rw [InvForest_cons] at h
    obtain ⟨hN, -, hns⟩ := h
    rw [InvNode_mk] at hN
    obtain ⟨hsf, hp, hc⟩ := hN
    have hσ2 : ∀ s ∈ σ ++ [n], '/' ∉ s.data := by
      intro s hs
      rcases List.mem_append.mp hs with h1 | h1
      · exact hσ s h1
      · rw [List.mem_singleton] at h1
        rw [h1]
        exact hsf
    have hlast : (splitSlash p).getLast? = some n := by
      rw [hp, splitSlash_joinSlash (σ ++ [n]) (by simp) hσ2]
      exact List.getLast?_concat _
    cases c with
    | none =>
      simp only [forestWF]
      exact ⟨⟨hlast, trivial⟩, InvForest_forestWF σ ns hσ hns⟩
    | some cs =>
      obtain ⟨-, -, hcs⟩ := hc
      simp only [forestWF]
      refine ⟨⟨hlast, ?_, InvForest_forestWF (σ ++ [n]) cs hσ2 hcs⟩,
        InvForest_forestWF σ ns hσ hns⟩
      intro x hx
      have hAll := ((InvForest_iff (σ ++ [n]) cs).mp hcs).1 x hx
      rcases x with ⟨n2, p2, ty2, c2⟩
      rw [InvNode_mk] at hAll
      obtain ⟨-, hp2, -⟩ := hAll
      show p2 = p ++ "/" ++ n2
      rw [hp2, hp,
        joinSlash_append_of_ne_nil (σ ++ [n]) [n2] (by simp) (by simp),
        joinSlash_singleton]
/-! ### The C1 / C9 claim-level statements -/

/-- The well-formedness that C1 requires of one flat path: non-empty, and
with no empty slash-separated segment (which also rules out leading and
trailing slashes). -/
def wellFormedPath (p : String) : Prop :=
  p ≠ "" ∧ ∀ seg ∈ splitSlash p, seg ≠ ""

instance : DecidablePred wellFormedPath := fun p => by
  unfold wellFormedPath
  infer_instance

/-- String-level proper-prefix-freeness of `P` gives the segment-level
pairwise incomparability that the insertion loop needs. -/
theorem pairwise_incomparable_of_prefix_free (P : List String)
    (hpf : ∀ p ∈ P, ∀ q ∈ P, p.data <+: q.data → p = q) :
    P.Pairwise (fun p q => splitSlash p ≠ splitSlash q →
      ¬ splitSlash p <+: splitSlash q ∧ ¬ splitSlash q <+: splitSlash p) := by
  refine List.pairwise_of_forall_mem_list ?_
  intro p hp q hq hne
  constructor
  · intro hpre
    rcases segs_proper_prefix_string (splitSlash p) (splitSlash q)
      (splitSlash_ne_nil p) hpre hne with ⟨hstr, hne2⟩
    rw [joinSlash_splitSlash, joinSlash_splitSlash] at hstr hne2
    exact hne2 (hpf p hp q hq hstr)
  · intro hpre
    rcases segs_proper_prefix_string (splitSlash q) (splitSlash p)
      (splitSlash_ne_nil q) hpre (fun h => hne h.symm) with ⟨hstr, hne2⟩
    rw [joinSlash_splitSlash, joinSlash_splitSlash] at hstr hne2
    exact hne2 (hpf q hq p hp hstr)

/-- Under proper-prefix-freeness, `buildFileTree` satisfies the structural
invariant, its file-segment paths are exactly the split input paths, and
they are duplicate-free. -/
theorem buildFileTree_invariants (P : List String)
    (hpf : ∀ p ∈ P, ∀ q ∈ P, p.data <+: q.data → p = q) :
    InvForest [] (buildFileTree P) ∧
    (∀ q, q ∈ fileSegs [] (buildFileTree P) ↔ ∃ p ∈ P, q = splitSlash p) ∧
    (fileSegs [] (buildFileTree P)).Nodup := by
  have hPP := pairwise_incomparable_of_prefix_free P hpf
  have hI0 : InvForest [] ([] : List FileNode) := by
    rw [InvForest_iff]
    exact ⟨by simp, .nil⟩
  have hsegs0 : fileSegs [] ([] : List FileNode) = [] := by
    simp only [fileSegs]
  have hfold := fold_master P [] hI0 (by
      intro f hf
      rw [hsegs0] at hf
      simp at hf) hPP
  obtain ⟨hI, hIff, hNd⟩ := hfold
  have hperm := fileSegs_sortTree_perm (P.foldl insertPath []) []
  refine ⟨InvForest_sortTree _ [] hI, ?_, ?_⟩
  · intro q
    rw [show buildFileTree P = sortTree (P.foldl insertPath []) from rfl]
    rw [hperm.mem_iff, hIff q, hsegs0]
    simp
  · rw [show buildFileTree P = sortTree (P.foldl insertPath []) from rfl,
      hperm.nodup_iff]
    exact hNd (by rw [hsegs0]; exact .nil)

/-- C9: for every input path list in which no path is a proper prefix of
another path (equal paths allowed), every node of the tree built by
`buildFileTree` has its `name` equal to the final slash-separated segment
of its `path`, and every child node's `path` equals its parent's `path`
followed by `"/"` followed by the child's `name`. -/
theorem buildFileTree_node_names_paths (P : List String)
    (hpf : ∀ p ∈ P, ∀ q ∈ P, p.data <+: q.data → p = q) :
    forestWF (buildFileTree P) := by
  obtain ⟨hI, -, -⟩ := buildFileTree_invariants P hpf
  exact InvForest_forestWF [] _ (by simp) hI

theorem buildFileTree_node_names_paths_witness :
    (∀ p ∈ ["src/app.ts", "src/lib/util.ts", "README.md"],
      ∀ q ∈ ["src/app.ts", "src/lib/util.ts", "README.md"],
        p.data <+: q.data → p = q) ∧
    forestWF (buildFileTree ["src/app.ts", "src/lib/util.ts", "README.md"]) :=
  ⟨by decide, buildFileTree_node_names_paths
    ["src/app.ts", "src/lib/util.ts", "README.md"] (by decide)⟩

set_option maxRecDepth 10000 in
set_option maxHeartbeats 2000000 in
unseal List.merge List.mergeSort CodeSync.sortTree CodeSync.flattenForest in
/-- C1 counterexample: the path list `["a/b", "a"]` is well-formed in the
claim's sense, yet `"a"` is lost by the build/flatten round trip: when
`"a/b"` is inserted first, the later file path `"a"` hits the existing
`dir` node of the same name with no remaining segments, and the loop
inserts nothing for it. -/
theorem flatten_build_not_round_trip :
    (∀ p ∈ ["a/b", "a"], wellFormedPath p) ∧ "a" ∈ ["a/b", "a"] ∧
      "a" ∉ flattenForest (buildFileTree ["a/b", "a"]) := by
  decide

/-- C1 (amended): for a well-formed path list that is additionally
proper-prefix-free, flattening the built tree yields exactly the set of
input paths, each exactly once. -/
theorem flatten_build_round_trip (P : List String)
    (hwf : ∀ p ∈ P, wellFormedPath p)
    (hpf : ∀ p ∈ P, ∀ q ∈ P, p.data <+: q.data → p = q) :
    (∀ s, s ∈ flattenForest (buildFileTree P) ↔ s ∈ P) ∧
    (flattenForest (buildFileTree P)).Nodup := by
  obtain ⟨hI, hIff, hNd⟩ := buildFileTree_invariants P hpf
  have hflat := flattenForest_eq [] (buildFileTree P) hI
  constructor
  · intro s
    rw [hflat, List.mem_map]
    constructor
    · rintro ⟨q, hq, rfl⟩
      rcases (hIff q).mp hq with ⟨p, hp, rfl⟩
      rw [joinSlash_splitSlash]
      exact hp
    · intro hs
      exact ⟨splitSlash s, (hIff _).mpr ⟨s, hs, rfl⟩,
        joinSlash_splitSlash s⟩
  · rw [hflat]
    refine List.Nodup.map_on ?_ hNd
    intro x hx y hy hxy
    rcases (hIff x).mp hx with ⟨px, hpx, rfl⟩
    rcases (hIff y).mp hy with ⟨py, hpy, rfl⟩
    rw [joinSlash_splitSlash, joinSlash_splitSlash] at hxy
    rw [hxy]

theorem flatten_build_round_trip_witness :
    (∀ p ∈ ["a/b", "a/c", "d"], wellFormedPath p) ∧
    (∀ p ∈ ["a/b", "a/c", "d"], ∀ q ∈ ["a/b", "a/c", "d"],
      p.data <+: q.data → p = q) ∧
    ((∀ s, s ∈ flattenForest (buildFileTree ["a/b", "a/c", "d"]) ↔
        s ∈ ["a/b", "a/c", "d"]) ∧
      (flattenForest (buildFileTree ["a/b", "a/c", "d"])).Nodup) :=
  ⟨by decide, by decide,
    flatten_build_round_trip ["a/b", "a/c", "d"] (by decide) (by decide)⟩
end CodeSync
